import Mathlib

/-!
Verification development for the RAG engine core (`src/engine.py` of the
HermesContext repository): chunking (`_split_text`), contextual enrichment
(`_enrich_chunk`), reciprocal rank fusion (`_reciprocal_rank_fusion`),
cross-encoder rerank orchestration (`_rerank`), and the cached `search`
pipeline.

Modelling conventions:
* Python strings are modelled at the character-list level (`List Char`), with
  `String` wrappers at the interface.  `str.split()` (whitespace words),
  `str.split(sep)`, `str.strip()` and `sep.join(...)` are reimplemented
  faithfully below.
* Python `float` arithmetic is modelled by exact rationals (`ℚ`); `round(x, n)`
  is modelled as exact decimal rounding with ties-to-even, mirroring Python's
  `round` on the real value.
* A raised Python exception is modelled by `Option.none` (for `_split_text`,
  whose word-window fallback can raise `ValueError` from `range(0, n, 0)`).
* The collaborators consumed by `search` (embedding model, vector / keyword
  search, reranker model, Redis cache) are modelled as oracle functions and
  explicit state in a `RagWorld` record; counters instrument how often each
  collaborator is invoked so that "performs no further work" claims are
  expressible.
-/

set_option maxRecDepth 4000

/-- Whitespace predicate of Python's `str.split()` / `str.strip()`
(space, tab, newline, carriage return, vertical tab, form feed). -/
def pyIsSpace (c : Char) : Bool :=
  c == ' ' || c == '\t' || c == '\n' || c == '\r' || c == '\x0b' || c == '\x0c'

/-- Accumulator loop of Python `str.split()` (no argument): split on runs of
whitespace, dropping empty pieces.  `cur` holds the current word reversed. -/
def wordsGo : List Char → List Char → List (List Char)
  | [], cur => if cur = [] then [] else [cur.reverse]
  | c :: rest, cur =>
    if pyIsSpace c then
      (if cur = [] then [] else [cur.reverse]) ++ wordsGo rest []
    else
      wordsGo rest (c :: cur)

/-- Python `text.split()`: the whitespace-delimited words of `text`. -/
def wordsChars (l : List Char) : List (List Char) := wordsGo l []

/-- Word count of a character list (`len(s.split())`). -/
def wcC (l : List Char) : Nat := (wordsChars l).length

/-- Sum of the word counts of a list of parts. -/
def wcSum (parts : List (List Char)) : Nat := (parts.map wcC).sum

/-- Python `s.strip()`: drop leading and trailing whitespace. -/
def trimChars (l : List Char) : List Char :=
  ((l.dropWhile pyIsSpace).reverse.dropWhile pyIsSpace).reverse

/-- Python `sep.join(parts)`. -/
def joinChars (sep : List Char) : List (List Char) → List Char
  | [] => []
  | [x] => x
  | x :: y :: rest => x ++ sep ++ joinChars sep (y :: rest)

/-- Does `p` occur at the head of `l`? -/
def startsWithChars : List Char → List Char → Bool
  | [], _ => true
  | _ :: _, [] => false
  | p :: ps, c :: cs => p == c && startsWithChars ps cs

/-- Scanner of Python `text.split(sep)`: cut at each non-overlapping,
leftmost-first occurrence of `sep`, keeping empty pieces.  `acc` holds the
current piece reversed.  `fuel` only forces structural termination: every
step consumes at least one character, so callers pass `fuel = l.length` and
the zero-fuel branch is unreachable. -/
def splitGo (sep : List Char) : Nat → List Char → List Char → List (List Char)
  | _, [], acc => [acc.reverse]
  | 0, l, acc => [acc.reverse ++ l]
  | fuel + 1, c :: rest, acc =>
    if sep ≠ [] ∧ startsWithChars sep (c :: rest) then
      acc.reverse :: splitGo sep fuel (List.drop sep.length (c :: rest)) []
    else
      splitGo sep fuel rest (c :: acc)

/-- Python `text.split(sep)` for a non-empty separator.  (Python raises on an
empty separator; that case is unreachable here and modelled as no split.) -/
def splitOnList (sep l : List Char) : List (List Char) :=
  if sep = [] then [l] else splitGo sep l.length l []

/-- The backward walk that seeds the next chunk with trailing overlap parts
(lines 94-103 of `_split_text`): iterate over `reversed(current)`, break as
soon as the accumulated word count would exceed `overlap`, prepend kept
parts.  `acc` is already in original order; `accLen` tracks its word count. -/
def overlapSeedGo (ov : Nat) : List (List Char) → List (List Char) → Nat → List (List Char)
  | [], acc, _ => acc
  | p :: rest, acc, accLen =>
    if accLen + wcC p > ov then acc
    else overlapSeedGo ov rest (p :: acc) (accLen + wcC p)

/-- Overlap carry-over of `current`: the maximal run of trailing whole parts
whose word counts fit within `ov`. -/
def overlapSeed (ov : Nat) (current : List (List Char)) : List (List Char) :=
  overlapSeedGo ov current.reverse [] 0

/-- The separator-path accumulation loop of `_split_text` (lines 84-113):
gather parts into `current` until the next part would overflow `chunkSize`,
then flush `sep.join(current).strip()` (dropped when empty) and seed the new
`current` with the overlap carry-over.  `currentLen` mirrors the Python
`current_len` counter. -/
def sepAccum (sep : List Char) (chunkSize ov : Nat) :
    List (List Char) → List (List Char) → Nat → List (List Char)
  | [], current, _ =>
    if current = [] then []
    else
      let chunk := trimChars (joinChars sep current)
      if chunk = [] then [] else [chunk]
  | part :: rest, current, currentLen =>
    let pl := wcC part
    if currentLen + pl > chunkSize ∧ current ≠ [] then
      let chunk := trimChars (joinChars sep current)
      let seed := overlapSeed ov current
      (if chunk = [] then [] else [chunk]) ++
        sepAccum sep chunkSize ov rest (seed ++ [part]) (wcSum seed + pl)
    else
      sepAccum sep chunkSize ov rest (current ++ [part]) (currentLen + pl)

/-- Specification companion of `sepAccum` that keeps each emitted chunk as a
*group* of parts split into `(seed, fresh)`: `seed` is the overlap carry-over
inherited from the previous chunk and `fresh` the parts first consumed by
this chunk, so `seed ++ fresh` is exactly the Python `current` list at flush
time.  `sepAccum` is proved equal to rejoining, trimming and
dropping-if-empty these groups. -/
def sepRun (sep : List Char) (chunkSize ov : Nat) :
    List (List Char) → List (List Char) → List (List Char) →
      List (List (List Char) × List (List Char))
  | [], seed, fresh => if seed ++ fresh = [] then [] else [(seed, fresh)]
  | part :: rest, seed, fresh =>
    if wcSum (seed ++ fresh) + wcC part > chunkSize ∧ seed ++ fresh ≠ [] then
      (seed, fresh) ::
        sepRun sep chunkSize ov rest (overlapSeed ov (seed ++ fresh)) [part]
    else
      sepRun sep chunkSize ov rest seed (fresh ++ [part])

/-- Python `range(0, stop, step)` for a positive `step`: the multiples of
`step` below `stop`, i.e. `j * step` for `j < ⌈stop / step⌉`.  (`range`
raises `ValueError` on step 0 and is empty for a negative step; both are
handled by the caller.) -/
def pyRange0 (stop step : Nat) : List Nat :=
  (List.range ((stop + step - 1) / step)).map (· * step)

/-- The word-window fallback of `_split_text` (lines 77-82) for a positive
step: windows of `chunkSize` words starting at 0, step, 2·step, …, each
rejoined with single spaces, stripped, empties dropped. -/
def fallbackChunks (ws : List (List Char)) (chunkSize step : Nat) : List (List Char) :=
  (((pyRange0 ws.length step).map
      (fun i => joinChars [' '] ((ws.drop i).take chunkSize))).map trimChars).filter
    (· ≠ [])

/-- `RAGEngine._split_text` (lines 59-113 of `src/engine.py`) at the
character-list level.  `none` models the `ValueError` Python raises from
`range(0, len(words), 0)` when `chunk_size == overlap` on the fallback path;
`chunk_size < overlap` makes the fallback `range` empty, so the function
returns no chunks at all. -/
def splitTextC (text : List Char) (chunkSize ov : Nat) (seps : List (List Char)) :
    Option (List (List Char)) :=
  if wcC text ≤ chunkSize then
    some (if trimChars text = [] then [] else [trimChars text])
  else
    match seps.find? (fun sep => decide (1 < (splitOnList sep text).length)) with
    | some sep => some (sepAccum sep chunkSize ov (splitOnList sep text) [] 0)
    | none =>
      if chunkSize ≤ ov then
        if chunkSize = ov then none else some []
      else
        some (fallbackChunks (wordsChars text) chunkSize (chunkSize - ov))

/-- `RAGEngine._split_text` over `String`. -/
def splitText (text : String) (chunkSize ov : Nat) (seps : List String) :
    Option (List String) :=
  (splitTextC text.data chunkSize ov (seps.map String.data)).map
    (List.map fun l => String.mk l)

/-- `settings.chunk_separators` (`src/config.py` line 36). -/
def defaultSeparators : List String := ["\n\n", "\n", ". ", ", ", " "]

/-- `settings.chunk_size`. -/
def defaultChunkSize : Nat := 512

/-- `settings.chunk_overlap`. -/
def defaultChunkOverlap : Nat := 64

/-- Python `s.split()` over `String`. -/
def pyWordsS (s : String) : List String := (wordsChars s.data).map String.mk

/-- Word count over `String`. -/
def wcS (s : String) : Nat := wcC s.data

/-- `sep.join(parts)` over `String`. -/
def joinStrS (sep : String) (parts : List String) : String :=
  String.mk (joinChars sep.data (parts.map String.data))

/-- `RAGEngine._enrich_chunk` (lines 115-128 of `src/engine.py`): pipe-joined
hierarchical prefix wrapped in brackets.  Note the Python truthiness test
`if doc_type:`: an empty-string type is skipped like `None`. -/
def enrichChunk (chunkText docTitle : String) (chunkIndex : Nat)
    (docType : Option String) : String :=
  let headParts : List String :=
    ["Documento: " ++ docTitle] ++
      (match docType with
        | some t => if t = "" then [] else ["Tipo: " ++ t]
        | none => []) ++
      ["Trecho " ++ toString (chunkIndex + 1)]
  "[" ++ joinStrS " | " headParts ++ "] " ++ chunkText

/-- A retrieval candidate record: the dictionary produced by vector / keyword
search and threaded through fusion and reranking.  Fields the pipeline never
reads are omitted; score fields start absent and are attached functionally
(Python mutates the dict in place). -/
structure Cand where
  chunk_id : Nat
  chunk_text : String := ""
  enriched_text : Option String := none
  rrf_score : Option ℚ := none
  rerank_score : Option ℚ := none
deriving DecidableEq

/-- Round a rational to the nearest integer with ties to even, as Python's
`round` does on the represented real value. -/
def halfEvenInt (q : ℚ) : ℤ :=
  let f := Int.floor q
  let r := q - f
  if r < 1 / 2 then f
  else if 1 / 2 < r then f + 1
  else if f % 2 = 0 then f else f + 1

/-- Python `round(x, dp)` on the exact rational value. -/
def roundDp (dp : Nat) (q : ℚ) : ℚ :=
  (halfEvenInt (q * (10 : ℚ) ^ dp) : ℚ) / (10 : ℚ) ^ dp

/-- Association-list lookup (first match wins), standing in for Python dict
indexing. -/
def alookup {κ α : Type} [DecidableEq κ] : List (κ × α) → κ → Option α
  | [], _ => none
  | (k, v) :: rest, key => if k = key then some v else alookup rest key

/-- Python dict assignment `d[key] = v`: overwrite in place if the key exists,
otherwise append at the end (dicts preserve insertion order). -/
def aupsert {κ α : Type} [DecidableEq κ] : List (κ × α) → κ → α → List (κ × α)
  | [], key, v => [(key, v)]
  | (k, w) :: rest, key, v =>
    if k = key then (key, v) :: rest else (k, w) :: aupsert rest key v

/-- `scores[cid] = scores.get(cid, 0.0) + add`: accumulate into an existing
entry in place, or append a fresh entry. -/
def upsertScore : List (Nat × ℚ) → Nat → ℚ → List (Nat × ℚ)
  | [], cid, add => [(cid, add)]
  | (c, s) :: rest, cid, add =>
    if c = cid then (c, s + add) :: rest else (c, s) :: upsertScore rest cid add

/-- `if cid not in chunk_map: chunk_map[cid] = r`. -/
def putIfAbsent (m : List (Nat × Cand)) (cid : Nat) (r : Cand) : List (Nat × Cand) :=
  if (alookup m cid).isSome then m else m ++ [(cid, r)]

/-- Stable insertion step for a descending sort by `key`: the new element goes
after every already-placed element of equal or higher key. -/
def insertDescBy {α : Type} (key : α → ℚ) (x : α) : List α → List α
  | [] => [x]
  | y :: ys => if key y < key x then x :: y :: ys else y :: insertDescBy key x ys

/-- Python's stable sort, descending by `key` (`sorted(..., key=..., reverse=True)`
and `list.sort(key=..., reverse=True)`): equal keys keep their original order. -/
def sortDescBy {α : Type} (key : α → ℚ) (l : List α) : List α :=
  l.foldl (fun acc x => insertDescBy key x acc) []

/-- The first loop of `_reciprocal_rank_fusion` (lines 239-244): walk the
vector results with their 0-based ranks, add `w / (k + rank + 1)` to each
candidate's score and record its metadata (`chunk_map[cid] = r`). -/
def rrfVecPass (w : ℚ) (k : Nat) :
    Nat → List Cand → List (Nat × ℚ) → List (Nat × Cand) →
      List (Nat × ℚ) × List (Nat × Cand)
  | _, [], scores, cmap => (scores, cmap)
  | rank, r :: rest, scores, cmap =>
    rrfVecPass w k (rank + 1) rest
      (upsertScore scores r.chunk_id (w / ((k : ℚ) + (rank : ℚ) + 1)))
      (aupsert cmap r.chunk_id r)

/-- The second loop of `_reciprocal_rank_fusion` (lines 246-252): keyword
results contribute likewise, but metadata is kept only for unseen ids. -/
def rrfKeyPass (w : ℚ) (k : Nat) :
    Nat → List Cand → List (Nat × ℚ) → List (Nat × Cand) →
      List (Nat × ℚ) × List (Nat × Cand)
  | _, [], scores, cmap => (scores, cmap)
  | rank, r :: rest, scores, cmap =>
    rrfKeyPass w k (rank + 1) rest
      (upsertScore scores r.chunk_id (w / ((k : ℚ) + (rank : ℚ) + 1)))
      (putIfAbsent cmap r.chunk_id r)

/-- The `scores` dict and `chunk_map` of `_reciprocal_rank_fusion` after both
accumulation loops. -/
def rrfScores (vres kres : List Cand) (k : Nat) (wv wk : ℚ) :
    List (Nat × ℚ) × List (Nat × Cand) :=
  let st1 := rrfVecPass wv k 0 vres [] []
  rrfKeyPass wk k 0 kres st1.1 st1.2

/-- The output record for one ranked fused candidate:
`item = chunk_map[cid].copy(); item["rrf_score"] = round(rrf_score, 6)`.
The `none` fallback is unreachable (every scored id is in `chunk_map`). -/
def rrfItem (cmap : List (Nat × Cand)) (p : Nat × ℚ) : Cand :=
  match alookup cmap p.1 with
  | some r => {r with rrf_score := some (roundDp 6 p.2)}
  | none => {chunk_id := p.1, rrf_score := some (roundDp 6 p.2)}

/-- `RAGEngine._reciprocal_rank_fusion` (lines 229-261): accumulate weighted
reciprocal-rank contributions, sort candidates by total score descending
(stable), and emit a copy of each candidate's metadata with the rounded
`rrf_score` attached. -/
def reciprocalRankFusion (vres kres : List Cand) (k : Nat) (wv wk : ℚ) :
    List Cand :=
  let st := rrfScores vres kres k wv wk
  (sortDescBy (fun p => p.2) st.1).map (rrfItem st.2)

/-- 0-based index of the first occurrence of `cid` in a list (the *rank* of a
candidate in a ranked list); 0 past the end, only used under membership. -/
def idxOfNat (cid : Nat) : List Nat → Nat
  | [] => 0
  | x :: xs => if x = cid then 0 else idxOfNat cid xs + 1

/-- The claim's score formula for reciprocal rank fusion: a candidate at
0-based rank `r` of a list with weight `w` contributes `w / (k + r + 1)`, a
list it is absent from contributes zero, and the fused score is the sum over
the two lists. -/
def rrfClaimScore (vres kres : List Cand) (k : Nat) (wv wk : ℚ) (cid : Nat) : ℚ :=
  (if cid ∈ vres.map Cand.chunk_id then
    wv / ((k : ℚ) + (idxOfNat cid (vres.map Cand.chunk_id) : ℚ) + 1)
  else 0) +
  (if cid ∈ kres.map Cand.chunk_id then
    wk / ((k : ℚ) + (idxOfNat cid (kres.map Cand.chunk_id) : ℚ) + 1)
  else 0)

/-- The contribution a single ranked list starting at rank `rank` makes to a
candidate's fused score (sums over *all* occurrences, which under the ranked
lists' no-duplicate assumption is the single reciprocal-rank term). -/
def listContrib (w : ℚ) (k : Nat) : Nat → List Cand → Nat → ℚ
  | _, [], _ => 0
  | rank, r :: rest, cid =>
    (if r.chunk_id = cid then w / ((k : ℚ) + (rank : ℚ) + 1) else 0) +
      listContrib w k (rank + 1) rest cid

/-- `settings.rrf_k`. -/
def rrfK : Nat := 60

/-- `settings.vector_weight`. -/
def vectorWeight : ℚ := 7 / 10

/-- `settings.keyword_weight`. -/
def keywordWeight : ℚ := 3 / 10

/-- `settings.retrieval_top_k`. -/
def retrievalTopK : Nat := 20

/-- `settings.rerank_top_k`. -/
def rerankTopK : Nat := 5

/-- `settings.cache_ttl_seconds`. -/
def cacheTtlSeconds : Nat := 3600

/-- The candidate text the reranker scores: `c.get("enriched_text") or
c["chunk_text"]` — Python falls back to the raw text when the enriched text
is missing *or empty* (falsy). -/
def rerankText (c : Cand) : String :=
  match c.enriched_text with
  | some e => if e = "" then c.chunk_text else e
  | none => c.chunk_text

/-- The `(query, candidate_text)` pairs handed to the cross-encoder. -/
def rerankPairs (query : String) (candidates : List Cand) :
    List (String × String) :=
  candidates.map fun c => (query, rerankText c)

/-- The post-call state of the `candidates` list passed to `RAGEngine._rerank`
(lines 263-280): each record gains `rerank_score = round(score, 4)` and the
list is sorted in place, descending by that score (stable).  On an empty
input the scoring model is not invoked and the list is untouched.  `predict`
is the external cross-encoder oracle. -/
def rerankEffect (predict : List (String × String) → List ℚ) (query : String)
    (candidates : List Cand) : List Cand :=
  if candidates = [] then candidates
  else
    sortDescBy (fun c => (c.rerank_score.getD 0))
      (List.zipWith (fun c s => {c with rerank_score := some (roundDp 4 s)})
        candidates (predict (rerankPairs query candidates)))

/-- `RAGEngine._rerank`: the value returned to the caller, `candidates[:top_k]`
of the mutated list (and `[]` straight away for an empty input). -/
def rerank (predict : List (String × String) → List ℚ) (query : String)
    (candidates : List Cand) (topK : Nat) : List Cand :=
  (rerankEffect predict query candidates).take topK

/-- The structured response of `RAGEngine.search`.  Elapsed wall-clock time is
not modelled (always 0). -/
structure Response where
  query : String
  results : List Cand
  total_candidates : Nat
  elapsed_ms : Nat
  cached : Bool
deriving DecidableEq

/-- The world `search` runs in: the Redis cache contents (key, stored
response, expiry instant), failure switches for the cache backend (a raised
exception on get / set), the external collaborator oracles, and invocation
counters instrumenting each collaborator call. -/
structure RagWorld where
  time : Nat
  cacheEntries : List (String × Response × Nat) := []
  cacheGetFails : Bool := false
  cacheSetFails : Bool := false
  embedFn : String → List ℚ
  vectorFn : List ℚ → Nat → List Cand
  keywordFn : String → Nat → List Cand
  predictFn : List (String × String) → List ℚ
  embedCalls : Nat := 0
  vectorCalls : Nat := 0
  keywordCalls : Nat := 0
  fusionCalls : Nat := 0
  predictCalls : Nat := 0

/-- `RAGEngine._cache_key`: a deterministic fingerprint of the literal query
string.  Modelled as the query string itself; the SHA-256 prefix is opaque
and injective modulo hash collisions, which are out of scope. -/
def cacheKey (query : String) : String := query

/-- `RAGEngine._check_cache` (lines 204-213): best-effort read.  Any backend
failure is caught and treated as a miss; an entry is visible only before its
expiry instant.  JSON serialization round-trips losslessly and is modelled as
the identity. -/
def checkCache (w : RagWorld) (query : String) : Option Response :=
  if w.cacheGetFails then none
  else
    match alookup w.cacheEntries (cacheKey query) with
    | some (resp, expiry) => if w.time < expiry then some resp else none
    | none => none

/-- `RAGEngine._set_cache` (lines 215-225): best-effort `SETEX` with the
configured TTL.  Any backend failure is caught and the store becomes a
no-op. -/
def setCache (w : RagWorld) (query : String) (resp : Response) : RagWorld :=
  if w.cacheSetFails then w
  else
    {w with
      cacheEntries :=
        aupsert w.cacheEntries (cacheKey query) (resp, w.time + cacheTtlSeconds)}

/-- Steps 2-6 of `RAGEngine.search` (lines 315-352): embed the query, run both
searches, fuse, optionally rerank the first `retrieval_top_k` fused
candidates, and store the response when caching is on and the result list is
non-empty. -/
def searchCompute (w : RagWorld) (query : String) (topK : Nat)
    (useCache useReranker : Bool) : Response × RagWorld :=
  let w1 := {w with embedCalls := w.embedCalls + 1}
  let queryVec := w.embedFn query
  let w2 := {w1 with vectorCalls := w1.vectorCalls + 1}
  let vres := w.vectorFn queryVec retrievalTopK
  let w3 := {w2 with keywordCalls := w2.keywordCalls + 1}
  let kres := w.keywordFn query retrievalTopK
  let w4 := {w3 with fusionCalls := w3.fusionCalls + 1}
  let fused := reciprocalRankFusion vres kres rrfK vectorWeight keywordWeight
  let resultsAndW :=
    if useReranker = true ∧ fused ≠ [] then
      (rerank w.predictFn query (fused.take retrievalTopK) topK,
        {w4 with predictCalls := w4.predictCalls + 1})
    else (fused.take topK, w4)
  let response : Response :=
    { query := query, results := resultsAndW.1, total_candidates := fused.length,
      elapsed_ms := 0, cached := false }
  if useCache = true ∧ response.results ≠ [] then
    (response, setCache resultsAndW.2 query response)
  else (response, resultsAndW.2)

/-- `RAGEngine.search` (lines 282-352): cache check first (a hit is returned
marked `cached = True` with no further work), otherwise the full pipeline. -/
def search (w : RagWorld) (query : String) (topK : Nat)
    (useCache useReranker : Bool) : Response × RagWorld :=
  if useCache = true then
    match checkCache w query with
    | some cached => ({cached with cached := true}, w)
    | none => searchCompute w query topK useCache useReranker
  else searchCompute w query topK useCache useReranker

/-- The `_enrich_chunk` contract as the spec states it (amended to the labels
and truthiness test the code actually uses): bracket-wrapped, pipe-joined
prefix of `Documento: {title}`, then `Tipo: {doc_type}` when a non-empty type
is given, then 1-based `Trecho {i+1}`. -/
def enrichSpecAmended (segmentText docTitle : String) (segmentIndex : Nat)
    (docType : Option String) : String :=
  match docType with
  | some t =>
    if t = "" then
      "[Documento: " ++ docTitle ++ " | Trecho " ++ toString (segmentIndex + 1) ++
        "] " ++ segmentText
    else
      "[Documento: " ++ docTitle ++ " | Tipo: " ++ t ++ " | Trecho " ++
        toString (segmentIndex + 1) ++ "] " ++ segmentText
  | none =>
    "[Documento: " ++ docTitle ++ " | Trecho " ++ toString (segmentIndex + 1) ++
      "] " ++ segmentText

/-- A concrete world used to instantiate the pipeline theorems: empty cold
cache, healthy backends, one vector hit and no keyword hits. -/
def sampleWorld : RagWorld :=
  { time := 0
    embedFn := fun _ => [1]
    vectorFn := fun _ _ => [{chunk_id := 1, chunk_text := "one"}]
    keywordFn := fun _ _ => []
    predictFn := fun ps => ps.map (fun _ => (1 : ℚ) / 2) }

/-! ## Claim theorems -/

/-- C1 (code_bug evaluation): on a text none of whose configured separators
occurs, with `target_size = 2` words, the fallback path does **not** treat a
non-positive window step as a step of at least 1: with `overlap = target_size`
the split raises (`range(0, 3, 0)` is a `ValueError`, modelled as `none`), and
with `overlap > target_size` the `range` is empty, so the split returns **no
windows at all** instead of a non-empty covering sequence — while with a
positive step the same text does produce covering windows. -/
theorem c1_fallback_step_not_defensive :
    splitText "alpha\tbeta\tgamma" 2 2 defaultSeparators = none ∧
    splitText "alpha\tbeta\tgamma" 2 3 defaultSeparators = some [] ∧
    splitText "alpha\tbeta\tgamma" 2 1 defaultSeparators =
      some ["alpha beta", "beta gamma", "gamma"] := by
  refine ⟨?_, ?_, ?_⟩ <;> rfl

/-- C2 (counterexample): with `target_size = 2` and no overlap, splitting
`"a b c\n\nd e f"` returns the segment `"a b c"` of word count 3 > 2, yet
that segment is *not* a single indivisible unit: the configured separator
`" "` occurs in it (it splits into 3 parts), and it is not a single massive
token either.  The splitter simply never recurses into a part with the
weaker separators, so the claimed "only allowed exception" does not hold. -/
theorem c2_counterexample :
    splitText "a b c\n\nd e f" 2 0 defaultSeparators = some ["a b c", "d e f"] ∧
    wcS "a b c" = 3 ∧ 2 < wcS "a b c" ∧
    (splitOnList " ".data "a b c".data).length = 3 := by
  refine ⟨by rfl, by rfl, by decide, by rfl⟩

/-- C7 (counterexample): with `target_size = 1` and no overlap, splitting
`"aa, bb"` uses the separator `", "` and returns `["aa", "bb"]`.  The input's
word `"aa,"` appears in no returned segment — the separator characters
consumed at the segment boundary truncate the boundary word — so
concatenating the segments does not reconstruct all words of the input even
though no overlap words are involved. -/
theorem c7_counterexample :
    splitText "aa, bb" 1 0 defaultSeparators = some ["aa", "bb"] ∧
    pyWordsS "aa, bb" = ["aa,", "bb"] ∧
    "aa," ∉ pyWordsS "aa" ++ pyWordsS "bb" := by
  refine ⟨by rfl, by rfl, by decide⟩

/-- C6 (counterexample): `_enrich_chunk` does not produce the
`Document:`/`Segment` labels the claim states; the code's prefix labels are
`Documento:` and `Trecho`. -/
theorem c6_counterexample :
    enrichChunk "hello" "T" 0 none = "[Documento: T | Trecho 1] hello" ∧
    enrichChunk "hello" "T" 0 none ≠ "[Document: T | Segment 1] hello" := by
  exact ⟨by rfl, by decide⟩

/-! ### Helper lemmas: words, trim, join -/

theorem wordsGo_word_scan (w : List Char) (hw : ∀ c ∈ w, pyIsSpace c = false) :
    ∀ l cur, wordsGo (w ++ l) cur = wordsGo l (w.reverse ++ cur) := by
  induction w with
  | nil => intro l cur; simp
  | cons c w ih =>
    intro l cur
    have hc : pyIsSpace c = false := hw c (by simp)
    have hstep : wordsGo ((c :: w) ++ l) cur = wordsGo (w ++ l) (c :: cur) := by
      simp [wordsGo, hc]
    rw [hstep, ih (fun x hx => hw x (by simp [hx])) l (c :: cur)]
    simp [List.append_assoc]

theorem wordsGo_all_space (l : List Char) (hl : ∀ c ∈ l, pyIsSpace c = true) :
    ∀ cur, wordsGo l cur = if cur = [] then [] else [cur.reverse] := by
  induction l with
  | nil => intro cur; rfl
  | cons c rest ih =>
    intro cur
    have hc : pyIsSpace c = true := hl c (by simp)
    have hrest : wordsGo rest [] = [] := by
      rw [ih (fun x hx => hl x (by simp [hx])) []]; rfl
    simp [wordsGo, hc, hrest]

theorem wordsGo_append_spaces (sp : List Char) (hsp : ∀ c ∈ sp, pyIsSpace c = true) :
    ∀ l cur, wordsGo (l ++ sp) cur = wordsGo l cur := by
  intro l
  induction l with
  | nil =>
    intro cur
    rw [List.nil_append, wordsGo_all_space sp hsp cur]
    cases cur <;> rfl
  | cons c rest ih =>
    intro cur
    by_cases hc : pyIsSpace c = true
    · simp [wordsGo, hc, ih]
    · simp only [Bool.not_eq_true] at hc
      simp [wordsGo, hc, ih]

theorem wordsChars_dropWhile_leading (l : List Char) :
    wordsChars (l.dropWhile pyIsSpace) = wordsChars l := by
  induction l with
  | nil => rfl
  | cons c rest ih =>
    by_cases hc : pyIsSpace c = true
    · have h1 : (c :: rest).dropWhile pyIsSpace = rest.dropWhile pyIsSpace := by
        simp [List.dropWhile, hc]
      rw [h1, ih]
      simp [wordsChars, wordsGo, hc]
    · simp only [Bool.not_eq_true] at hc
      simp [List.dropWhile, hc]

theorem wordsChars_trim (l : List Char) :
    wordsChars (trimChars l) = wordsChars l := by
  unfold trimChars
  have hsp : ∀ c ∈ (((l.dropWhile pyIsSpace).reverse.takeWhile pyIsSpace).reverse),
      pyIsSpace c = true := by
    intro c hc
    rw [List.mem_reverse] at hc
    exact List.mem_takeWhile_imp hc
  have hdecomp :
      ((l.dropWhile pyIsSpace).reverse.dropWhile pyIsSpace).reverse ++
        ((l.dropWhile pyIsSpace).reverse.takeWhile pyIsSpace).reverse =
      l.dropWhile pyIsSpace := by
    rw [← List.reverse_append, List.takeWhile_append_dropWhile, List.reverse_reverse]
  have := wordsGo_append_spaces _ hsp
    ((l.dropWhile pyIsSpace).reverse.dropWhile pyIsSpace).reverse []
  unfold wordsChars
  rw [← this, hdecomp]
  exact wordsChars_dropWhile_leading l

theorem wcC_trim (l : List Char) : wcC (trimChars l) = wcC l := by
  unfold wcC; rw [wordsChars_trim]

theorem trim_eq_nil_words (l : List Char) (h : trimChars l = []) :
    wordsChars l = [] := by
  rw [← wordsChars_trim l, h]; rfl

theorem wordsGo_wordlike (l : List Char) :
    ∀ cur, (∀ c ∈ cur, pyIsSpace c = false) →
      ∀ w ∈ wordsGo l cur, w ≠ [] ∧ ∀ c ∈ w, pyIsSpace c = false := by
  induction l with
  | nil =>
    intro cur hcur w hw
    by_cases h : cur = []
    · simp [wordsGo, h] at hw
    · simp only [wordsGo, h, if_false] at hw
      simp only [List.mem_singleton] at hw
      subst hw
      refine ⟨by simpa using h, ?_⟩
      intro c hc
      exact hcur c (List.mem_reverse.mp hc)
  | cons c rest ih =>
    intro cur hcur w hw
    by_cases hc : pyIsSpace c = true
    · simp only [wordsGo, hc, if_true] at hw
      rcases List.mem_append.mp hw with h1 | h2
      · by_cases h : cur = []
        · simp [h] at h1
        · simp only [h, if_false, List.mem_singleton] at h1
          subst h1
          exact ⟨by simpa using h, fun x hx => hcur x (List.mem_reverse.mp hx)⟩
      · exact ih [] (by intro x hx; simp at hx) w h2
    · simp only [Bool.not_eq_true] at hc
      simp only [wordsGo, hc, Bool.false_eq_true, if_false] at hw
      refine ih (c :: cur) ?_ w hw
      intro x hx
      rcases List.mem_cons.mp hx with rfl | hx'
      · exact hc
      · exact hcur x hx'

theorem wordsChars_wordlike (l : List Char) :
    ∀ w ∈ wordsChars l, w ≠ [] ∧ ∀ c ∈ w, pyIsSpace c = false :=
  wordsGo_wordlike l [] (by intro x hx; simp at hx)

theorem joinChars_cons (sep x : List Char) (xs : List (List Char)) :
    joinChars sep (x :: xs) =
      x ++ (if xs = [] then [] else sep ++ joinChars sep xs) := by
  cases xs <;> simp [joinChars]

theorem wordsChars_join_words (ws : List (List Char))
    (h : ∀ w ∈ ws, w ≠ [] ∧ ∀ c ∈ w, pyIsSpace c = false) :
    wordsChars (joinChars [' '] ws) = ws := by
  induction ws with
  | nil => rfl
  | cons w ws ih =>
    have hw := h w (by simp)
    cases ws with
    | nil =>
      show wordsGo w [] = [w]
      have := wordsGo_word_scan w hw.2 [] []
      rw [List.append_nil] at this
      rw [this]
      simp [wordsGo, hw.1]
    | cons w2 ws2 =>
      have hjoin : joinChars [' '] (w :: w2 :: ws2) =
          w ++ (' ' :: joinChars [' '] (w2 :: ws2)) := by
        simp [joinChars]
      rw [hjoin]
      show wordsGo (w ++ (' ' :: joinChars [' '] (w2 :: ws2))) [] = w :: w2 :: ws2
      rw [wordsGo_word_scan w hw.2 _ []]
      have hne : w.reverse ≠ ([] : List Char) := by
        simpa [List.reverse_eq_nil_iff] using hw.1
      have := ih (fun x hx => h x (by simp [hx]))
      unfold wordsChars at this
      simp only [List.append_nil, wordsGo, show pyIsSpace ' ' = true from rfl,
        if_true, hne, if_false, List.reverse_reverse, this]
      simp

theorem wcSum_append (a b : List (List Char)) :
    wcSum (a ++ b) = wcSum a + wcSum b := by
  simp [wcSum]

/-! ### Helper lemmas: `str.split(sep)` joins back to the original text -/

theorem splitGo_ne_nil (sep : List Char) :
    ∀ fuel l acc, splitGo sep fuel l acc ≠ [] := by
  intro fuel
  induction fuel with
  | zero => intro l acc; cases l <;> simp [splitGo]
  | succ fuel ih =>
    intro l acc
    cases l with
    | nil => simp [splitGo]
    | cons c rest =>
      by_cases h : sep ≠ [] ∧ startsWithChars sep (c :: rest) = true
      · simp [splitGo, h]
      · simp only [splitGo]
        rw [if_neg (by simpa using h)]
        exact ih rest (c :: acc)

theorem startsWithChars_decomp :
    ∀ p l : List Char, startsWithChars p l = true → p ++ l.drop p.length = l := by
  intro p
  induction p with
  | nil => intro l _; simp
  | cons x ps ih =>
    intro l h
    cases l with
    | nil => simp [startsWithChars] at h
    | cons c cs =>
      simp only [startsWithChars, Bool.and_eq_true, beq_iff_eq] at h
      obtain ⟨rfl, h2⟩ := h
      simp only [List.cons_append, List.length_cons, List.drop_succ_cons]
      rw [ih cs h2]

theorem join_splitGo (sep : List Char) (hsep : sep ≠ []) :
    ∀ fuel l acc, l.length ≤ fuel →
      joinChars sep (splitGo sep fuel l acc) = acc.reverse ++ l := by
  intro fuel
  induction fuel with
  | zero =>
    intro l acc hl
    have : l = [] := List.length_eq_zero.mp (Nat.le_zero.mp hl)
    subst this
    simp [splitGo, joinChars]
  | succ fuel ih =>
    intro l acc hl
    cases l with
    | nil => simp [splitGo, joinChars]
    | cons c rest =>
      by_cases h : sep ≠ [] ∧ startsWithChars sep (c :: rest) = true
      · simp only [splitGo]
        rw [if_pos h]
        rw [joinChars_cons _ _ _ ]
        rw [if_neg (splitGo_ne_nil sep fuel _ [])]
        have hlen : (List.drop sep.length (c :: rest)).length ≤ fuel := by
          have h1 : 1 ≤ sep.length := by
            cases sep with
            | nil => exact absurd rfl h.1
            | cons _ _ => simp
          simp only [List.length_drop, List.length_cons]
          simp only [List.length_cons] at hl
          omega
        rw [ih _ [] hlen]
        simp only [List.reverse_nil, List.nil_append]
        rw [← List.append_assoc, List.append_assoc acc.reverse]
        rw [startsWithChars_decomp sep (c :: rest) h.2]
      · simp only [splitGo]
        rw [if_neg (by simpa using h)]
        rw [ih rest (c :: acc) (by simpa using Nat.le_of_succ_le_succ (by simpa using hl))]
        simp

theorem join_splitOnList (sep l : List Char) :
    joinChars sep (splitOnList sep l) = l := by
  unfold splitOnList
  by_cases h : sep = []
  · simp [h, joinChars]
  · rw [if_neg h, join_splitGo sep h l.length l [] (Nat.le_refl _)]
    simp

/-! ### Helper lemmas: the separator-path groups -/

theorem overlapSeedGo_bound (ov : Nat) :
    ∀ rest acc accLen, accLen = wcSum acc → accLen ≤ ov →
      wcSum (overlapSeedGo ov rest acc accLen) ≤ ov := by
  intro rest
  induction rest with
  | nil =>
    intro acc accLen h hle
    simpa [overlapSeedGo, ← h] using hle
  | cons p rest ih =>
    intro acc accLen h hle
    by_cases hc : accLen + wcC p > ov
    · simpa [overlapSeedGo, hc, ← h] using hle
    · simp only [overlapSeedGo, hc, if_false]
      refine ih (p :: acc) (accLen + wcC p) ?_ (by omega)
      simp [wcSum, h]
      omega

theorem overlapSeed_bound (ov : Nat) (cur : List (List Char)) :
    wcSum (overlapSeed ov cur) ≤ ov :=
  overlapSeedGo_bound ov cur.reverse [] 0 (by simp [wcSum]) (Nat.zero_le _)

theorem sepAccum_eq_sepRun (sep : List Char) (chunkSize ov : Nat) :
    ∀ parts seed fresh,
      sepAccum sep chunkSize ov parts (seed ++ fresh) (wcSum (seed ++ fresh)) =
        ((sepRun sep chunkSize ov parts seed fresh).map
          (fun g => trimChars (joinChars sep (g.1 ++ g.2)))).filter (· ≠ []) := by
  intro parts
  induction parts with
  | nil =>
    intro seed fresh
    by_cases h : seed ++ fresh = []
    · simp [sepAccum, sepRun, h]
    · simp only [sepAccum, sepRun, h, if_neg h]
      by_cases hc : trimChars (joinChars sep (seed ++ fresh)) = [] <;>
        simp [hc, List.filter_cons]
  | cons part rest ih =>
    intro seed fresh
    by_cases hcond :
        wcSum (seed ++ fresh) + wcC part > chunkSize ∧ seed ++ fresh ≠ []
    · simp only [sepAccum, sepRun]
      rw [if_pos hcond, if_pos hcond]
      have harg : wcSum (overlapSeed ov (seed ++ fresh)) + wcC part =
          wcSum (overlapSeed ov (seed ++ fresh) ++ [part]) := by
        rw [wcSum_append]; simp [wcSum]
      rw [harg, ih (overlapSeed ov (seed ++ fresh)) [part]]
      by_cases hc : trimChars (joinChars sep (seed ++ fresh)) = [] <;>
        simp [hc, List.filter_cons]
    · simp only [sepAccum, sepRun]
      rw [if_neg hcond, if_neg hcond]
      have harg1 : (seed ++ fresh) ++ [part] = seed ++ (fresh ++ [part]) :=
        List.append_assoc _ _ _
      have harg2 : wcSum (seed ++ fresh) + wcC part =
          wcSum (seed ++ (fresh ++ [part])) := by
        rw [wcSum_append, wcSum_append, wcSum_append]
        simp [wcSum]
        omega
      rw [harg1, harg2, ih seed (fresh ++ [part])]

theorem sepRun_snd_flatten (sep : List Char) (chunkSize ov : Nat) :
    ∀ parts seed fresh,
      ((sepRun sep chunkSize ov parts seed fresh).map Prod.snd).flatten =
        fresh ++ parts := by
  intro parts
  induction parts with
  | nil =>
    intro seed fresh
    by_cases h : seed ++ fresh = []
    · have : fresh = [] := (List.append_eq_nil.mp h).2
      simp [sepRun, h, this]
    · simp [sepRun, h]
  | cons part rest ih =>
    intro seed fresh
    by_cases hcond :
        wcSum (seed ++ fresh) + wcC part > chunkSize ∧ seed ++ fresh ≠ []
    · simp only [sepRun, if_pos hcond]
      simp [ih (overlapSeed ov (seed ++ fresh)) [part]]
    · simp only [sepRun, if_neg hcond]
      rw [ih seed (fresh ++ [part])]
      simp

theorem sepRun_group_bound (sep : List Char) (chunkSize ov : Nat) :
    ∀ parts seed fresh,
      (wcSum (seed ++ fresh) ≤ chunkSize ∨
        (wcSum seed ≤ ov ∧ ∃ p, fresh = [p])) →
      ∀ g ∈ sepRun sep chunkSize ov parts seed fresh,
        wcSum (g.1 ++ g.2) ≤ chunkSize ∨
          (wcSum g.1 ≤ ov ∧ ∃ p, g.2 = [p]) := by
  intro parts
  induction parts with
  | nil =>
    intro seed fresh hinv g hg
    by_cases h : seed ++ fresh = []
    · simp [sepRun, h] at hg
    · simp only [sepRun, if_neg h, List.mem_singleton] at hg
      subst hg
      exact hinv
  | cons part rest ih =>
    intro seed fresh hinv g hg
    by_cases hcond :
        wcSum (seed ++ fresh) + wcC part > chunkSize ∧ seed ++ fresh ≠ []
    · simp only [sepRun, if_pos hcond, List.mem_cons] at hg
      rcases hg with rfl | hg'
      · exact hinv
      · refine ih (overlapSeed ov (seed ++ fresh)) [part] ?_ g hg'
        exact Or.inr ⟨overlapSeed_bound ov _, part, rfl⟩
    · simp only [sepRun, if_neg hcond] at hg
      refine ih seed (fresh ++ [part]) ?_ g hg
      rcases Decidable.not_and_iff_or_not.mp hcond with h1 | h2
      · left
        rw [← List.append_assoc, wcSum_append (seed ++ fresh) [part]]
        have hone : wcSum [part] = wcC part := by simp [wcSum]
        rw [hone]
        omega
      · have hnil : seed ++ fresh = [] := by
          by_contra hne
          exact h2 hne
        obtain ⟨hs, hf⟩ := List.append_eq_nil.mp hnil
        subst hs; subst hf
        exact Or.inr ⟨by simp [wcSum], part, rfl⟩

/-! ### Helper lemmas: the word-window fallback -/

theorem pyRange0_zero (step : Nat) : pyRange0 0 step = [] := by
  unfold pyRange0
  rcases Nat.eq_zero_or_pos step with h | h
  · subst h; rfl
  · have : (0 + step - 1) / step = 0 := Nat.div_eq_of_lt (by omega)
    rw [this]
    rfl

theorem pyRange0_cons (stop step : Nat) (hstop : 0 < stop) (hstep : 0 < step) :
    pyRange0 stop step = 0 :: (pyRange0 (stop - step) step).map (· + step) := by
  unfold pyRange0
  have hn : (stop + step - 1) / step = ((stop - step) + step - 1) / step + 1 := by
    have ha : stop + step - 1 = (stop - 1) + step := by omega
    rw [ha, Nat.add_div_right _ hstep]
    by_cases hss : step ≤ stop
    · have hb : (stop - step) + step - 1 = stop - 1 := by omega
      rw [hb]
    · have hb : stop - step = 0 := by omega
      rw [hb]
      have hz1 : (0 + step - 1) / step = 0 := Nat.div_eq_of_lt (by omega)
      have hz2 : (stop - 1) / step = 0 := Nat.div_eq_of_lt (by omega)
      rw [hz1, hz2]
  rw [hn, List.range_succ_eq_map]
  simp [List.map_map, Function.comp, Nat.succ_mul]

theorem pyRange0_mem_lt (stop step : Nat) (hstep : 0 < step) :
    ∀ i ∈ pyRange0 stop step, i < stop := by
  intro i hi
  unfold pyRange0 at hi
  rcases List.mem_map.mp hi with ⟨j, hj, rfl⟩
  rw [List.mem_range] at hj
  rcases Nat.eq_zero_or_pos stop with h0 | h0
  · subst h0
    have : (0 + step - 1) / step = 0 := Nat.div_eq_of_lt (by omega)
    rw [this] at hj
    omega
  · have h1 : j + 1 ≤ (stop + step - 1) / step := hj
    have h2 : (j + 1) * step ≤ stop + step - 1 :=
      (Nat.le_div_iff_mul_le hstep).mp h1
    have : (j + 1) * step = j * step + step := by ring
    omega

theorem fallbackChunks_wc_le (ws : List (List Char)) (chunkSize step : Nat)
    (hws : ∀ w ∈ ws, w ≠ [] ∧ ∀ c ∈ w, pyIsSpace c = false) :
    ∀ chunk ∈ fallbackChunks ws chunkSize step, wcC chunk ≤ chunkSize := by
  intro chunk hchunk
  unfold fallbackChunks at hchunk
  rcases List.mem_filter.mp hchunk with ⟨hmem, _⟩
  rcases List.mem_map.mp hmem with ⟨x, hx, rfl⟩
  rcases List.mem_map.mp hx with ⟨i, _, rfl⟩
  have hwl : ∀ w ∈ (ws.drop i).take chunkSize,
      w ≠ [] ∧ ∀ c ∈ w, pyIsSpace c = false := by
    intro w hw
    exact hws w (List.drop_subset i ws (List.take_subset _ _ hw))
  unfold wcC
  rw [wordsChars_trim, wordsChars_join_words _ hwl]
  exact List.length_take_le _ _

theorem fallbackChunks_words (ws : List (List Char)) (chunkSize step : Nat)
    (hws : ∀ w ∈ ws, w ≠ [] ∧ ∀ c ∈ w, pyIsSpace c = false)
    (hstep : 0 < step) (hC : 0 < chunkSize) :
    (fallbackChunks ws chunkSize step).map wordsChars =
      (pyRange0 ws.length step).map (fun i => (ws.drop i).take chunkSize) := by
  unfold fallbackChunks
  have key : ∀ idxs : List Nat, (∀ i ∈ idxs, i < ws.length) →
      ((((idxs.map (fun i => joinChars [' '] ((ws.drop i).take chunkSize))).map
        trimChars).filter (· ≠ [])).map wordsChars) =
        idxs.map (fun i => (ws.drop i).take chunkSize) := by
    intro idxs hidx
    induction idxs with
    | nil => rfl
    | cons i rest ih =>
      have hwl : ∀ w ∈ (ws.drop i).take chunkSize,
          w ≠ [] ∧ ∀ c ∈ w, pyIsSpace c = false := by
        intro w hw
        exact hws w (List.drop_subset i ws (List.take_subset _ _ hw))
      have hwords :
          wordsChars (trimChars (joinChars [' '] ((ws.drop i).take chunkSize))) =
            (ws.drop i).take chunkSize := by
        rw [wordsChars_trim, wordsChars_join_words _ hwl]
      have hwin_ne : (ws.drop i).take chunkSize ≠ [] := by
        have hi : i < ws.length := hidx i (by simp)
        have hdne : ws.drop i ≠ [] := by
          intro hd
          have := List.drop_eq_nil_iff.mp hd
          omega
        intro ht
        rcases List.take_eq_nil_iff.mp ht with h | h
        · omega
        · exact hdne h
      have hne : trimChars (joinChars [' '] ((ws.drop i).take chunkSize)) ≠ [] := by
        intro h
        rw [h] at hwords
        exact hwin_ne (by simpa [wordsChars, wordsGo] using hwords.symm)
      simp only [List.map_cons, List.filter_cons]
      rw [if_pos (by simpa using hne)]
      simp only [List.map_cons, hwords]
      rw [ih (fun j hj => hidx j (by simp [hj]))]
  exact key _ (pyRange0_mem_lt ws.length step hstep)

theorem windows_sublist (chunkSize step : Nat) (hstep : 0 < step)
    (hle : step ≤ chunkSize) :
    ∀ n (ws : List (List Char)), ws.length ≤ n →
      ws.Sublist (((pyRange0 ws.length step).map
        (fun i => (ws.drop i).take chunkSize)).flatten) := by
  intro n
  induction n with
  | zero =>
    intro ws hlen
    have : ws = [] := List.length_eq_zero.mp (Nat.le_zero.mp hlen)
    subst this
    simp [pyRange0_zero]
  | succ n ih =>
    intro ws hlen
    rcases List.eq_nil_or_concat ws with rfl | _
    · simp [pyRange0_zero]
    · have hws : ws ≠ [] := by
        rename_i hcc
        rcases hcc with ⟨l, a, rfl⟩
        simp
      have hpos : 0 < ws.length := List.length_pos.mpr hws
      rw [pyRange0_cons ws.length step hpos hstep]
      simp only [List.map_cons, List.map_map, List.flatten_cons, List.drop_zero]
      have hdrop : ∀ j : Nat,
          ((fun i => (ws.drop i).take chunkSize) ∘ (· + step)) j =
            (((ws.drop step).drop j).take chunkSize) := by
        intro j
        simp [Function.comp, List.drop_drop, Nat.add_comm]
      have hrw :
          (pyRange0 (ws.length - step) step).map
              ((fun i => (ws.drop i).take chunkSize) ∘ (· + step)) =
            (pyRange0 (ws.drop step).length step).map
              (fun j => (((ws.drop step).drop j).take chunkSize)) := by
        rw [List.length_drop]
        exact List.map_congr_left fun j _ => hdrop j
      rw [hrw]
      have h2 : (ws.drop step).Sublist
          (((pyRange0 (ws.drop step).length step).map
            (fun j => (((ws.drop step).drop j).take chunkSize))).flatten) := by
        refine ih (ws.drop step) ?_
        simp only [List.length_drop]
        omega
      have h1 : (ws.take step).Sublist (ws.take chunkSize) := by
        have : ws.take step = (ws.take chunkSize).take step := by
          rw [List.take_take, Nat.min_eq_left hle]
        rw [this]
        exact List.take_sublist _ _
      have hfinal := List.Sublist.append h1 h2
      rw [List.take_append_drop] at hfinal
      exact hfinal

theorem sepAccum_init_eq (sep : List Char) (chunkSize ov : Nat)
    (parts : List (List Char)) :
    sepAccum sep chunkSize ov parts [] 0 =
      ((sepRun sep chunkSize ov parts [] []).map
        (fun g => trimChars (joinChars sep (g.1 ++ g.2)))).filter (· ≠ []) := by
  have := sepAccum_eq_sepRun sep chunkSize ov parts [] []
  simpa [wcSum] using this

/-- C2 (amended): every segment returned by `_split_text` has word count at
most `target_size`, **except** that (a) on the separator path a segment is
the separator-rejoin of a group of whole parts, and such a group exceeds the
bound exactly when it consists of an overlap carry-over of at most `overlap`
words followed by one single part — a part is never subdivided further, even
when weaker configured separators still occur inside it — and (b) rejoining
with a separator containing non-whitespace characters can additionally glue
separator fragments onto words, so the bound is stated on the group's parts.
Small inputs and fallback windows always respect the bound. -/
theorem c2_amended (text : List Char) (chunkSize ov : Nat)
    (seps : List (List Char)) (chunks : List (List Char))
    (h : splitTextC text chunkSize ov seps = some chunks) :
    ∀ chunk ∈ chunks,
      wcC chunk ≤ chunkSize ∨
      ∃ sep, seps.find? (fun s => decide (1 < (splitOnList s text).length)) =
          some sep ∧
        ∃ g ∈ sepRun sep chunkSize ov (splitOnList sep text) [] [],
          chunk = trimChars (joinChars sep (g.1 ++ g.2)) ∧
          (wcSum (g.1 ++ g.2) ≤ chunkSize ∨
            (wcSum g.1 ≤ ov ∧ ∃ p, g.2 = [p])) := by
  intro chunk hchunk
  unfold splitTextC at h
  by_cases hsmall : wcC text ≤ chunkSize
  · rw [if_pos hsmall] at h
    left
    by_cases htrim : trimChars text = []
    · rw [if_pos htrim] at h
      have := Option.some.inj h
      subst this
      simp at hchunk
    · rw [if_neg htrim] at h
      have := Option.some.inj h
      subst this
      rcases List.mem_singleton.mp hchunk with rfl
      rw [wcC_trim]
      exact hsmall
  · rw [if_neg hsmall] at h
    cases hfind : seps.find? (fun s => decide (1 < (splitOnList s text).length)) with
    | some sep =>
      rw [hfind] at h
      have hchunks := Option.some.inj h
      right
      refine ⟨sep, rfl, ?_⟩
      rw [← hchunks, sepAccum_init_eq] at hchunk
      rcases List.mem_filter.mp hchunk with ⟨hmem, _⟩
      rcases List.mem_map.mp hmem with ⟨g, hg, rfl⟩
      refine ⟨g, hg, rfl, ?_⟩
      exact sepRun_group_bound sep chunkSize ov (splitOnList sep text) [] []
        (Or.inl (by simp [wcSum])) g hg
    | none =>
      rw [hfind] at h
      left
      by_cases hov : chunkSize ≤ ov
      · rw [if_pos hov] at h
        by_cases heq : chunkSize = ov
        · rw [if_pos heq] at h
          exact absurd h (by simp)
        · rw [if_neg heq] at h
          have := Option.some.inj h
          subst this
          simp at hchunk
      · rw [if_neg hov] at h
        have := Option.some.inj h
        subst this
        exact fallbackChunks_wc_le (wordsChars text) chunkSize (chunkSize - ov)
          (wordsChars_wordlike text) chunk hchunk

/-- C2 (amended, witness): the amended statement evaluated at the
counterexample input of `c2_counterexample`, at its oversize first segment
`"a b c"`. -/
theorem c2_amended_witness :
    wcC "a b c".data ≤ 2 ∨
    ∃ sep, (defaultSeparators.map String.data).find?
        (fun s => decide (1 < (splitOnList s "a b c\n\nd e f".data).length)) =
        some sep ∧
      ∃ g ∈ sepRun sep 2 0 (splitOnList sep "a b c\n\nd e f".data) [] [],
        "a b c".data = trimChars (joinChars sep (g.1 ++ g.2)) ∧
        (wcSum (g.1 ++ g.2) ≤ 2 ∨ (wcSum g.1 ≤ 0 ∧ ∃ p, g.2 = [p])) :=
  c2_amended "a b c\n\nd e f".data 2 0 (defaultSeparators.map String.data)
    ["a b c".data, "d e f".data] (by rfl) "a b c".data (by decide)

/-- C7 (amended): no *content* is silently dropped by `_split_text`, but word
identity at segment boundaries is only preserved up to the separator text
consumed there.  Precisely: (1) for small inputs the single trimmed segment
carries exactly the input's words; (2) on the separator path the segments are
exactly the trimmed separator-rejoins of the `sepRun` groups, and re-inserting
the chosen separator between the *fresh* parts of all groups (ignoring the
overlap carry-over) reconstructs the original text verbatim — so segments can
only lose separator fragments glued to boundary words, never whole content;
(3) on the word-window fallback with `overlap < target_size`, the input's
word sequence embeds in order into the concatenation of the windows' words. -/
theorem c7_amended (text : List Char) (chunkSize ov : Nat)
    (seps : List (List Char)) (chunks : List (List Char))
    (h : splitTextC text chunkSize ov seps = some chunks) :
    (wcC text ≤ chunkSize → (chunks.map wordsChars).flatten = wordsChars text) ∧
    (∀ sep, chunkSize < wcC text →
      seps.find? (fun s => decide (1 < (splitOnList s text).length)) = some sep →
      chunks = ((sepRun sep chunkSize ov (splitOnList sep text) [] []).map
          (fun g => trimChars (joinChars sep (g.1 ++ g.2)))).filter (· ≠ []) ∧
      joinChars sep
          (((sepRun sep chunkSize ov (splitOnList sep text) [] []).map
            Prod.snd).flatten) = text) ∧
    (chunkSize < wcC text →
      seps.find? (fun s => decide (1 < (splitOnList s text).length)) = none →
      ov < chunkSize →
      (wordsChars text).Sublist ((chunks.map wordsChars).flatten)) := by
  refine ⟨?_, ?_, ?_⟩
  · intro hsmall
    unfold splitTextC at h
    rw [if_pos hsmall] at h
    by_cases htrim : trimChars text = []
    · rw [if_pos htrim] at h
      have := Option.some.inj h
      subst this
      simp [trim_eq_nil_words text htrim]
    · rw [if_neg htrim] at h
      have := Option.some.inj h
      subst this
      simp [wordsChars_trim]
  · intro sep hlt hfind
    unfold splitTextC at h
    rw [if_neg (by omega), hfind] at h
    have hchunks := Option.some.inj h
    constructor
    · rw [← hchunks, sepAccum_init_eq]
    · rw [sepRun_snd_flatten]
      simpa using join_splitOnList sep text
  · intro hlt hfind hovlt
    unfold splitTextC at h
    rw [if_neg (by omega), hfind, if_neg (by omega)] at h
    have hchunks := Option.some.inj h
    rw [← hchunks]
    rw [fallbackChunks_words (wordsChars text) chunkSize (chunkSize - ov)
      (wordsChars_wordlike text) (by omega) (by omega)]
    exact windows_sublist chunkSize (chunkSize - ov) (by omega) (by omega)
      (wordsChars text).length (wordsChars text) (Nat.le_refl _)

/-- C7 (amended, witness): the amended statement evaluated at the
counterexample input of `c7_counterexample` (separator path, `", "` chosen):
the fresh parts of the groups rejoin to the original text. -/
theorem c7_amended_witness :
    (["aa".data, "bb".data] : List (List Char)) =
      ((sepRun ", ".data 1 0 (splitOnList ", ".data "aa, bb".data) [] []).map
        (fun g => trimChars (joinChars ", ".data (g.1 ++ g.2)))).filter (· ≠ []) ∧
    joinChars ", ".data
        (((sepRun ", ".data 1 0 (splitOnList ", ".data "aa, bb".data) [] []).map
          Prod.snd).flatten) = "aa, bb".data :=
  (c7_amended "aa, bb".data 1 0 (defaultSeparators.map String.data)
      ["aa".data, "bb".data] (by rfl)).2.1 ", ".data (by decide) (by rfl)

/-- C6 (amended): `_enrich_chunk` returns exactly the bracket-wrapped,
pipe-joined prefix built from `Documento: {title}`, then `Tipo: {doc_type}`
only when a non-empty document type is given, then the 1-based
`Trecho {segment_index+1}`, followed by the segment text. -/
theorem c6_amended (chunkText docTitle : String) (chunkIndex : Nat)
    (docType : Option String) :
    enrichChunk chunkText docTitle chunkIndex docType =
      enrichSpecAmended chunkText docTitle chunkIndex docType := by
  cases docType with
  | none =>
    simp only [enrichChunk, enrichSpecAmended, joinStrS]
    apply String.ext
    simp [joinChars, String.data_append]
  | some t =>
    by_cases ht : t = "" <;>
      · simp only [enrichChunk, enrichSpecAmended, joinStrS, ht]
        apply String.ext
        simp [joinChars, String.data_append]

/-! ### Helper lemmas: score accumulation of reciprocal rank fusion -/

theorem alookup_upsertScore (m : List (Nat × ℚ)) (cid : Nat) (add : ℚ) (c : Nat) :
    alookup (upsertScore m cid add) c =
      if c = cid then some ((alookup m c).getD 0 + add) else alookup m c := by
  induction m with
  | nil =>
    by_cases hc : c = cid
    · subst hc; simp [upsertScore, alookup]
    · have hc' : cid ≠ c := fun he => hc he.symm
      simp [upsertScore, alookup, hc, hc']
  | cons p rest ih =>
    obtain ⟨k0, s0⟩ := p
    by_cases h1 : k0 = cid
    · subst h1
      by_cases hc : c = k0
      · subst hc
        simp [upsertScore, alookup]
      · have hk : k0 ≠ c := fun he => hc he.symm
        simp [upsertScore, alookup, hk, hc]
    · by_cases hc : c = k0
      · have hne : ¬(c = cid) := by omega
        have hk : k0 = c := by omega
        simp [upsertScore, alookup, h1, hne, hk]
      · have hk : k0 ≠ c := by omega
        simp [upsertScore, alookup, h1, hk, hc, ih]

theorem upsertScore_keys_mem (m : List (Nat × ℚ)) (cid : Nat) (add : ℚ) (c : Nat) :
    c ∈ (upsertScore m cid add).map Prod.fst ↔
      c ∈ m.map Prod.fst ∨ c = cid := by
  induction m with
  | nil => simp [upsertScore]
  | cons p rest ih =>
    obtain ⟨k0, s0⟩ := p
    by_cases h1 : k0 = cid
    · simp only [upsertScore, if_pos h1, List.map_cons, List.mem_cons]
      constructor
      · tauto
      · rintro ((h | h) | h)
        · left; omega
        · right; exact h
        · left; omega
    · simp only [upsertScore, if_neg h1, List.map_cons, List.mem_cons, ih]
      tauto

theorem upsertScore_keys_nodup (m : List (Nat × ℚ)) (cid : Nat) (add : ℚ)
    (h : (m.map Prod.fst).Nodup) : ((upsertScore m cid add).map Prod.fst).Nodup := by
  induction m with
  | nil => simp [upsertScore]
  | cons p rest ih =>
    obtain ⟨k0, s0⟩ := p
    simp only [List.map_cons, List.nodup_cons] at h
    by_cases h1 : k0 = cid
    · simp only [upsertScore, if_pos h1, List.map_cons, List.nodup_cons]
      exact h
    · simp only [upsertScore, if_neg h1, List.map_cons, List.nodup_cons]
      refine ⟨?_, ih h.2⟩
      intro hc
      rw [upsertScore_keys_mem] at hc
      rcases hc with hc | hc
      · exact h.1 hc
      · exact h1 hc

theorem listContrib_not_mem (w : ℚ) (k : Nat) (l : List Cand) (cid : Nat)
    (h : cid ∉ l.map Cand.chunk_id) : ∀ rank, listContrib w k rank l cid = 0 := by
  induction l with
  | nil => intro rank; rfl
  | cons r rest ih =>
    intro rank
    simp only [List.map_cons, List.mem_cons] at h
    push_neg at h
    have hne : r.chunk_id ≠ cid := fun he => h.1 he.symm
    simp only [listContrib, if_neg hne]
    rw [ih h.2 (rank + 1)]
    simp

theorem rrfVecPass_lookup (w : ℚ) (k : Nat) :
    ∀ (l : List Cand) (rank : Nat) (scores : List (Nat × ℚ))
      (cmap : List (Nat × Cand)) (cid : Nat),
      alookup (rrfVecPass w k rank l scores cmap).1 cid =
        if cid ∈ l.map Cand.chunk_id then
          some ((alookup scores cid).getD 0 + listContrib w k rank l cid)
        else alookup scores cid := by
  intro l
  induction l with
  | nil => intro rank scores cmap cid; simp [rrfVecPass, listContrib]
  | cons r rest ih =>
    intro rank scores cmap cid
    simp only [rrfVecPass]
    rw [ih]
    by_cases hmem : cid ∈ rest.map Cand.chunk_id
    · rw [if_pos hmem, if_pos (by simp [hmem])]
      rw [alookup_upsertScore]
      by_cases hc : cid = r.chunk_id
      · rw [if_pos hc]
        simp only [Option.getD_some, listContrib, if_pos hc.symm]
        exact congrArg some (by ring)
      · rw [if_neg hc]
        have hc' : r.chunk_id ≠ cid := fun he => hc he.symm
        simp only [listContrib, if_neg hc']
        exact congrArg some (by ring)
    · rw [if_neg hmem]
      by_cases hc : cid = r.chunk_id
      · rw [if_pos (by simp [hc])]
        rw [alookup_upsertScore, if_pos hc]
        simp only [listContrib, if_pos hc.symm]
        rw [listContrib_not_mem w k rest cid hmem]
        exact congrArg some (by ring)
      · rw [if_neg (by simp [hc, hmem])]
        rw [alookup_upsertScore, if_neg hc]

theorem rrfKeyPass_lookup (w : ℚ) (k : Nat) :
    ∀ (l : List Cand) (rank : Nat) (scores : List (Nat × ℚ))
      (cmap : List (Nat × Cand)) (cid : Nat),
      alookup (rrfKeyPass w k rank l scores cmap).1 cid =
        if cid ∈ l.map Cand.chunk_id then
          some ((alookup scores cid).getD 0 + listContrib w k rank l cid)
        else alookup scores cid := by
  intro l
  induction l with
  | nil => intro rank scores cmap cid; simp [rrfKeyPass, listContrib]
  | cons r rest ih =>
    intro rank scores cmap cid
    simp only [rrfKeyPass]
    rw [ih]
    by_cases hmem : cid ∈ rest.map Cand.chunk_id
    · rw [if_pos hmem, if_pos (by simp [hmem])]
      rw [alookup_upsertScore]
      by_cases hc : cid = r.chunk_id
      · rw [if_pos hc]
        simp only [Option.getD_some, listContrib, if_pos hc.symm]
        exact congrArg some (by ring)
      · rw [if_neg hc]
        have hc' : r.chunk_id ≠ cid := fun he => hc he.symm
        simp only [listContrib, if_neg hc']
        exact congrArg some (by ring)
    · rw [if_neg hmem]
      by_cases hc : cid = r.chunk_id
      · rw [if_pos (by simp [hc])]
        rw [alookup_upsertScore, if_pos hc]
        simp only [listContrib, if_pos hc.symm]
        rw [listContrib_not_mem w k rest cid hmem]
        exact congrArg some (by ring)
      · rw [if_neg (by simp [hc, hmem])]
        rw [alookup_upsertScore, if_neg hc]

theorem rrfVecPass_keys_mem (w : ℚ) (k : Nat) :
    ∀ (l : List Cand) (rank : Nat) (scores : List (Nat × ℚ))
      (cmap : List (Nat × Cand)) (c : Nat),
      c ∈ (rrfVecPass w k rank l scores cmap).1.map Prod.fst ↔
        c ∈ scores.map Prod.fst ∨ c ∈ l.map Cand.chunk_id := by
  intro l
  induction l with
  | nil => intro rank scores cmap c; simp [rrfVecPass]
  | cons r rest ih =>
    intro rank scores cmap c
    simp only [rrfVecPass]
    rw [ih, upsertScore_keys_mem]
    simp only [List.map_cons, List.mem_cons]
    tauto

theorem rrfKeyPass_keys_mem (w : ℚ) (k : Nat) :
    ∀ (l : List Cand) (rank : Nat) (scores : List (Nat × ℚ))
      (cmap : List (Nat × Cand)) (c : Nat),
      c ∈ (rrfKeyPass w k rank l scores cmap).1.map Prod.fst ↔
        c ∈ scores.map Prod.fst ∨ c ∈ l.map Cand.chunk_id := by
  intro l
  induction l with
  | nil => intro rank scores cmap c; simp [rrfKeyPass]
  | cons r rest ih =>
    intro rank scores cmap c
    simp only [rrfKeyPass]
    rw [ih, upsertScore_keys_mem]
    simp only [List.map_cons, List.mem_cons]
    tauto

theorem rrfVecPass_keys_nodup (w : ℚ) (k : Nat) :
    ∀ (l : List Cand) (rank : Nat) (scores : List (Nat × ℚ))
      (cmap : List (Nat × Cand)),
      (scores.map Prod.fst).Nodup →
        ((rrfVecPass w k rank l scores cmap).1.map Prod.fst).Nodup := by
  intro l
  induction l with
  | nil => intro rank scores cmap h; simpa [rrfVecPass] using h
  | cons r rest ih =>
    intro rank scores cmap h
    simp only [rrfVecPass]
    exact ih _ _ _ (upsertScore_keys_nodup _ _ _ h)

theorem rrfKeyPass_keys_nodup (w : ℚ) (k : Nat) :
    ∀ (l : List Cand) (rank : Nat) (scores : List (Nat × ℚ))
      (cmap : List (Nat × Cand)),
      (scores.map Prod.fst).Nodup →
        ((rrfKeyPass w k rank l scores cmap).1.map Prod.fst).Nodup := by
  intro l
  induction l with
  | nil => intro rank scores cmap h; simpa [rrfKeyPass] using h
  | cons r rest ih =>
    intro rank scores cmap h
    simp only [rrfKeyPass]
    exact ih _ _ _ (upsertScore_keys_nodup _ _ _ h)

theorem listContrib_nodup (w : ℚ) (k : Nat) :
    ∀ (l : List Cand), (l.map Cand.chunk_id).Nodup →
      ∀ cid ∈ l.map Cand.chunk_id, ∀ rank,
        listContrib w k rank l cid =
          w / ((k : ℚ) + ((rank + idxOfNat cid (l.map Cand.chunk_id) : Nat) : ℚ) + 1) := by
  intro l
  induction l with
  | nil => intro _ cid hcid; simp at hcid
  | cons r rest ih =>
    intro hnd cid hcid rank
    simp only [List.map_cons, List.nodup_cons] at hnd
    by_cases hc : r.chunk_id = cid
    · have hnotin : cid ∉ rest.map Cand.chunk_id := hc ▸ hnd.1
      simp only [listContrib, if_pos hc]
      rw [listContrib_not_mem w k rest cid hnotin (rank + 1)]
      simp only [List.map_cons, idxOfNat, if_pos hc]
      simp
    · have hmem' : cid ∈ rest.map Cand.chunk_id := by
        simp only [List.map_cons, List.mem_cons] at hcid
        rcases hcid with h | h
        · exact absurd h.symm hc
        · exact h
      simp only [listContrib, if_neg hc]
      rw [ih hnd.2 cid hmem' (rank + 1)]
      simp only [List.map_cons, idxOfNat, if_neg hc]
      have harith : rank + 1 + idxOfNat cid (rest.map Cand.chunk_id) =
          rank + (idxOfNat cid (rest.map Cand.chunk_id) + 1) := by omega
      rw [harith]
      simp

theorem rrfScores_lookup (vres kres : List Cand) (k : Nat) (wv wk : ℚ)
    (hv : (vres.map Cand.chunk_id).Nodup) (hk : (kres.map Cand.chunk_id).Nodup)
    (cid : Nat) :
    alookup (rrfScores vres kres k wv wk).1 cid =
      if cid ∈ vres.map Cand.chunk_id ∨ cid ∈ kres.map Cand.chunk_id then
        some (rrfClaimScore vres kres k wv wk cid)
      else none := by
  unfold rrfScores
  rw [rrfKeyPass_lookup, rrfVecPass_lookup]
  show (if cid ∈ kres.map Cand.chunk_id then _ else _) = _
  by_cases hvm : cid ∈ vres.map Cand.chunk_id <;>
    by_cases hkm : cid ∈ kres.map Cand.chunk_id
  · rw [if_pos hkm, if_pos hvm, if_pos (Or.inl hvm)]
    unfold rrfClaimScore
    rw [if_pos hvm, if_pos hkm]
    rw [listContrib_nodup wv k vres hv cid hvm 0, listContrib_nodup wk k kres hk cid hkm 0]
    simp only [alookup, Option.getD_some, Option.getD_none, Nat.zero_add]
    exact congrArg some (by ring)
  · rw [if_neg hkm, if_pos hvm, if_pos (Or.inl hvm)]
    unfold rrfClaimScore
    rw [if_pos hvm, if_neg hkm]
    rw [listContrib_nodup wv k vres hv cid hvm 0]
    simp only [alookup, Option.getD_none, Nat.zero_add]
    exact congrArg some (by ring)
  · rw [if_pos hkm, if_neg hvm, if_pos (Or.inr hkm)]
    unfold rrfClaimScore
    rw [if_neg hvm, if_pos hkm]
    rw [listContrib_nodup wk k kres hk cid hkm 0]
    simp only [alookup, Option.getD_none, Nat.zero_add]
  · rw [if_neg hkm, if_neg hvm, if_neg (by tauto)]
    rfl

theorem rrfScores_keys_mem (vres kres : List Cand) (k : Nat) (wv wk : ℚ) (c : Nat) :
    c ∈ (rrfScores vres kres k wv wk).1.map Prod.fst ↔
      c ∈ vres.map Cand.chunk_id ∨ c ∈ kres.map Cand.chunk_id := by
  unfold rrfScores
  rw [rrfKeyPass_keys_mem, rrfVecPass_keys_mem]
  simp only [List.map_nil]
  constructor
  · rintro ((h | h) | h)
    · simp at h
    · tauto
    · tauto
  · tauto

theorem rrfScores_keys_nodup (vres kres : List Cand) (k : Nat) (wv wk : ℚ) :
    ((rrfScores vres kres k wv wk).1.map Prod.fst).Nodup := by
  unfold rrfScores
  exact rrfKeyPass_keys_nodup _ _ _ _ _ _
    (rrfVecPass_keys_nodup _ _ _ _ _ _ (by simp))

/-! ### Helper lemmas: association lists and the stable descending sort -/

theorem alookup_aupsert {κ α : Type} [DecidableEq κ]
    (m : List (κ × α)) (key : κ) (v : α) (c : κ) :
    alookup (aupsert m key v) c = if key = c then some v else alookup m c := by
  induction m with
  | nil => rfl
  | cons p rest ih =>
    obtain ⟨k0, w0⟩ := p
    by_cases h1 : k0 = key
    · subst h1
      by_cases h2 : k0 = c <;> simp [aupsert, alookup, h2]
    · by_cases h2 : k0 = c
      · subst h2
        have hne : key ≠ k0 := fun he => h1 he.symm
        simp [aupsert, alookup, h1, hne]
      · simp [aupsert, alookup, h1, h2, ih]

theorem alookup_append_some {κ α : Type} [DecidableEq κ]
    (m1 m2 : List (κ × α)) (c : κ) (v : α) (h : alookup m1 c = some v) :
    alookup (m1 ++ m2) c = some v := by
  induction m1 with
  | nil => simp [alookup] at h
  | cons p rest ih =>
    obtain ⟨k0, w0⟩ := p
    by_cases h1 : k0 = c
    · simp only [alookup, if_pos h1] at h
      simp [alookup, h1, h]
    · simp only [alookup, if_neg h1] at h
      simp [alookup, h1, ih h]

theorem alookup_append_none {κ α : Type} [DecidableEq κ]
    (m1 m2 : List (κ × α)) (c : κ) (h : alookup m1 c = none) :
    alookup (m1 ++ m2) c = alookup m2 c := by
  induction m1 with
  | nil => rfl
  | cons p rest ih =>
    obtain ⟨k0, w0⟩ := p
    by_cases h1 : k0 = c
    · simp [alookup, h1] at h
    · simp only [alookup, if_neg h1] at h
      simp [alookup, h1, ih h]

theorem alookup_of_mem_nodup {κ α : Type} [DecidableEq κ]
    (m : List (κ × α)) (hnd : (m.map Prod.fst).Nodup) (p : κ × α) (hp : p ∈ m) :
    alookup m p.1 = some p.2 := by
  induction m with
  | nil => simp at hp
  | cons q rest ih =>
    simp only [List.map_cons, List.nodup_cons] at hnd
    rcases List.mem_cons.mp hp with rfl | hp'
    · simp [alookup]
    · have hne : q.1 ≠ p.1 := by
        intro he
        exact hnd.1 (he ▸ List.mem_map_of_mem Prod.fst hp')
      simp only [alookup, if_neg hne]
      exact ih hnd.2 hp'

theorem aupsert_chunk_ok (m : List (Nat × Cand)) (key : Nat) (v : Cand)
    (hm : ∀ c r, alookup m c = some r → r.chunk_id = c) (hv : v.chunk_id = key) :
    ∀ c r, alookup (aupsert m key v) c = some r → r.chunk_id = c := by
  intro c r h
  rw [alookup_aupsert] at h
  by_cases hc : key = c
  · rw [if_pos hc] at h
    cases h
    omega
  · rw [if_neg hc] at h
    exact hm c r h

theorem putIfAbsent_chunk_ok (m : List (Nat × Cand)) (key : Nat) (v : Cand)
    (hm : ∀ c r, alookup m c = some r → r.chunk_id = c) (hv : v.chunk_id = key) :
    ∀ c r, alookup (putIfAbsent m key v) c = some r → r.chunk_id = c := by
  intro c r h
  unfold putIfAbsent at h
  by_cases hs : (alookup m key).isSome
  · rw [if_pos hs] at h
    exact hm c r h
  · rw [if_neg hs] at h
    cases hlk : alookup m c with
    | some rr =>
      rw [alookup_append_some m [(key, v)] c rr hlk] at h
      have h2 : rr = r := by injection h
      subst h2
      exact hm c rr hlk
    | none =>
      rw [alookup_append_none m [(key, v)] c hlk] at h
      simp only [alookup] at h
      by_cases hc : key = c
      · rw [if_pos hc] at h
        have h2 : v = r := by injection h
        subst h2
        omega
      · rw [if_neg hc] at h
        cases h

theorem rrfVecPass_cmap_ok (w : ℚ) (k : Nat) :
    ∀ (l : List Cand) (rank : Nat) (scores : List (Nat × ℚ))
      (cmap : List (Nat × Cand)),
      (∀ c r, alookup cmap c = some r → r.chunk_id = c) →
      ∀ c r, alookup (rrfVecPass w k rank l scores cmap).2 c = some r →
        r.chunk_id = c := by
  intro l
  induction l with
  | nil => intro rank scores cmap hm; exact hm
  | cons x rest ih =>
    intro rank scores cmap hm
    simp only [rrfVecPass]
    exact ih _ _ _ (aupsert_chunk_ok cmap x.chunk_id x hm rfl)

theorem rrfKeyPass_cmap_ok (w : ℚ) (k : Nat) :
    ∀ (l : List Cand) (rank : Nat) (scores : List (Nat × ℚ))
      (cmap : List (Nat × Cand)),
      (∀ c r, alookup cmap c = some r → r.chunk_id = c) →
      ∀ c r, alookup (rrfKeyPass w k rank l scores cmap).2 c = some r →
        r.chunk_id = c := by
  intro l
  induction l with
  | nil => intro rank scores cmap hm; exact hm
  | cons x rest ih =>
    intro rank scores cmap hm
    simp only [rrfKeyPass]
    exact ih _ _ _ (putIfAbsent_chunk_ok cmap x.chunk_id x hm rfl)

theorem rrfScores_cmap_ok (vres kres : List Cand) (k : Nat) (wv wk : ℚ) :
    ∀ c r, alookup (rrfScores vres kres k wv wk).2 c = some r →
      r.chunk_id = c := by
  unfold rrfScores
  exact rrfKeyPass_cmap_ok _ _ _ _ _ _
    (rrfVecPass_cmap_ok _ _ _ _ _ _ (by intro c r h; simp [alookup] at h))

theorem insertDescBy_perm {α : Type} (key : α → ℚ) (x : α) (l : List α) :
    (insertDescBy key x l).Perm (x :: l) := by
  induction l with
  | nil => exact List.Perm.refl _
  | cons y ys ih =>
    by_cases h : key y < key x
    · simp [insertDescBy, h]
    · simp only [insertDescBy, if_neg h]
      exact (ih.cons y).trans (List.Perm.swap x y ys)

theorem mem_insertDescBy {α : Type} (key : α → ℚ) (x z : α) (l : List α) :
    z ∈ insertDescBy key x l ↔ z = x ∨ z ∈ l := by
  rw [(insertDescBy_perm key x l).mem_iff]
  simp

theorem insertDescBy_sorted {α : Type} (key : α → ℚ) (x : α) (l : List α)
    (h : l.Pairwise (fun a b => key b ≤ key a)) :
    (insertDescBy key x l).Pairwise (fun a b => key b ≤ key a) := by
  induction l with
  | nil => simp [insertDescBy]
  | cons y ys ih =>
    rcases List.pairwise_cons.mp h with ⟨hy, hys⟩
    by_cases hlt : key y < key x
    · simp only [insertDescBy, if_pos hlt]
      refine List.pairwise_cons.mpr ⟨?_, h⟩
      intro z hz
      rcases List.mem_cons.mp hz with rfl | hz'
      · exact le_of_lt hlt
      · exact le_trans (hy z hz') (le_of_lt hlt)
    · simp only [insertDescBy, if_neg hlt]
      refine List.pairwise_cons.mpr ⟨?_, ih hys⟩
      intro z hz
      rcases (mem_insertDescBy key x z ys).mp hz with rfl | hz'
      · exact le_of_not_lt hlt
      · exact hy z hz'

theorem foldl_insertDescBy_perm {α : Type} (key : α → ℚ) :
    ∀ (l acc : List α),
      (List.foldl (fun acc x => insertDescBy key x acc) acc l).Perm (acc ++ l) := by
  intro l
  induction l with
  | nil => intro acc; simp
  | cons x xs ih =>
    intro acc
    simp only [List.foldl_cons]
    refine (ih (insertDescBy key x acc)).trans ?_
    refine (List.Perm.append_right xs (insertDescBy_perm key x acc)).trans ?_
    exact List.perm_middle.symm

theorem sortDescBy_perm {α : Type} (key : α → ℚ) (l : List α) :
    (sortDescBy key l).Perm l := by
  unfold sortDescBy
  simpa using foldl_insertDescBy_perm key l []

theorem sortDescBy_sorted {α : Type} (key : α → ℚ) (l : List α) :
    (sortDescBy key l).Pairwise (fun a b => key b ≤ key a) := by
  unfold sortDescBy
  have main : ∀ (l acc : List α), acc.Pairwise (fun a b => key b ≤ key a) →
      (List.foldl (fun acc x => insertDescBy key x acc) acc l).Pairwise
        (fun a b => key b ≤ key a) := by
    intro l
    induction l with
    | nil => intro acc h; simpa using h
    | cons x xs ih =>
      intro acc h
      simp only [List.foldl_cons]
      exact ih _ (insertDescBy_sorted key x acc h)
  exact main l [] (by simp)

theorem rrfItem_chunk_id (cmap : List (Nat × Cand)) (p : Nat × ℚ)
    (hok : ∀ c r, alookup cmap c = some r → r.chunk_id = c) :
    (rrfItem cmap p).chunk_id = p.1 := by
  unfold rrfItem
  cases hlk : alookup cmap p.1 with
  | some r => simpa using hok p.1 r hlk
  | none => rfl

theorem rrfItem_rrf_score (cmap : List (Nat × Cand)) (p : Nat × ℚ) :
    (rrfItem cmap p).rrf_score = some (roundDp 6 p.2) := by
  unfold rrfItem
  cases alookup cmap p.1 <;> rfl

theorem reciprocalRankFusion_eq (vres kres : List Cand) (k : Nat) (wv wk : ℚ) :
    reciprocalRankFusion vres kres k wv wk =
      (sortDescBy (fun p => p.2) (rrfScores vres kres k wv wk).1).map
        (rrfItem (rrfScores vres kres k wv wk).2) := rfl

theorem sorted_scores_char (vres kres : List Cand) (k : Nat) (wv wk : ℚ)
    (hv : (vres.map Cand.chunk_id).Nodup) (hk : (kres.map Cand.chunk_id).Nodup) :
    ∀ p ∈ sortDescBy (fun p : Nat × ℚ => p.2) (rrfScores vres kres k wv wk).1,
      p.2 = rrfClaimScore vres kres k wv wk p.1 ∧
        (p.1 ∈ vres.map Cand.chunk_id ∨ p.1 ∈ kres.map Cand.chunk_id) := by
  intro p hp
  have hpsc : p ∈ (rrfScores vres kres k wv wk).1 :=
    (sortDescBy_perm (fun p : Nat × ℚ => p.2) _).mem_iff.mp hp
  have hkey : p.1 ∈ (rrfScores vres kres k wv wk).1.map Prod.fst :=
    List.mem_map_of_mem Prod.fst hpsc
  have hunion := (rrfScores_keys_mem vres kres k wv wk p.1).mp hkey
  have hlk := alookup_of_mem_nodup _ (rrfScores_keys_nodup vres kres k wv wk) p hpsc
  rw [rrfScores_lookup vres kres k wv wk hv hk p.1, if_pos hunion] at hlk
  exact ⟨(Option.some.inj hlk).symm, hunion⟩

/-- C3: for ranked inputs (no duplicate chunk ids within a list), the fused
output of `_reciprocal_rank_fusion` contains each distinct chunk id of the
union of the two inputs exactly once (never a dropped, duplicated or
truncated candidate); the fused score of a candidate is exactly
`weight / (k + rank + 1)` summed over the lists containing it (zero from a
list it is absent from); each output record carries that score rounded to 6
decimals in `rrf_score`; and the output is sorted by the fused score,
descending. -/
theorem c3_rrf_totality (vres kres : List Cand) (k : Nat) (wv wk : ℚ)
    (hv : (vres.map Cand.chunk_id).Nodup) (hk : (kres.map Cand.chunk_id).Nodup) :
    (∀ cid : Nat,
      ((reciprocalRankFusion vres kres k wv wk).map Cand.chunk_id).count cid =
        if cid ∈ vres.map Cand.chunk_id ∨ cid ∈ kres.map Cand.chunk_id then 1
        else 0) ∧
    (∀ cid : Nat, alookup (rrfScores vres kres k wv wk).1 cid =
        if cid ∈ vres.map Cand.chunk_id ∨ cid ∈ kres.map Cand.chunk_id then
          some (rrfClaimScore vres kres k wv wk cid)
        else none) ∧
    (∀ c ∈ reciprocalRankFusion vres kres k wv wk,
      c.rrf_score =
        some (roundDp 6 (rrfClaimScore vres kres k wv wk c.chunk_id))) ∧
    (reciprocalRankFusion vres kres k wv wk).Pairwise
      (fun a b => rrfClaimScore vres kres k wv wk b.chunk_id ≤
        rrfClaimScore vres kres k wv wk a.chunk_id) := by
  have hcmap := rrfScores_cmap_ok vres kres k wv wk
  have hnd := rrfScores_keys_nodup vres kres k wv wk
  have hchar := sorted_scores_char vres kres k wv wk hv hk
  refine ⟨?_, rrfScores_lookup vres kres k wv wk hv hk, ?_, ?_⟩
  · intro cid
    rw [reciprocalRankFusion_eq, List.map_map]
    have h1 : (sortDescBy (fun p : Nat × ℚ => p.2)
          (rrfScores vres kres k wv wk).1).map
          (Cand.chunk_id ∘ rrfItem (rrfScores vres kres k wv wk).2) =
        (sortDescBy (fun p : Nat × ℚ => p.2)
          (rrfScores vres kres k wv wk).1).map Prod.fst :=
      List.map_congr_left fun p _ => rrfItem_chunk_id _ p hcmap
    rw [h1]
    have h2 := ((sortDescBy_perm (fun p : Nat × ℚ => p.2)
      (rrfScores vres kres k wv wk).1).map Prod.fst).count_eq cid
    rw [h2]
    by_cases hm : cid ∈ vres.map Cand.chunk_id ∨ cid ∈ kres.map Cand.chunk_id
    · rw [if_pos hm]
      exact List.count_eq_one_of_mem hnd
        ((rrfScores_keys_mem vres kres k wv wk cid).mpr hm)
    · rw [if_neg hm]
      exact List.count_eq_zero_of_not_mem
        (fun hc => hm ((rrfScores_keys_mem vres kres k wv wk cid).mp hc))
  · intro c hc
    rw [reciprocalRankFusion_eq] at hc
    rcases List.mem_map.mp hc with ⟨p, hp, rfl⟩
    rw [rrfItem_rrf_score, rrfItem_chunk_id _ p hcmap, ← (hchar p hp).1]
  · rw [reciprocalRankFusion_eq, List.pairwise_map]
    refine List.Pairwise.imp_of_mem ?_
      (sortDescBy_sorted (fun p : Nat × ℚ => p.2) (rrfScores vres kres k wv wk).1)
    intro a b ha hb hab
    rw [rrfItem_chunk_id _ a hcmap, rrfItem_chunk_id _ b hcmap,
      ← (hchar a ha).1, ← (hchar b hb).1]
    exact hab

/-- C3 (witness): the totality clause evaluated on concrete ranked lists with
ids {1,2} and {2,3}: id 2 (present in both) appears exactly once in the fused
output, id 7 (present in neither) not at all. -/
theorem c3_rrf_totality_witness :
    ((reciprocalRankFusion
        [{chunk_id := 1}, {chunk_id := 2}] [{chunk_id := 2}, {chunk_id := 3}]
        60 (7 / 10) (3 / 10)).map Cand.chunk_id).count 2 = 1 ∧
    ((reciprocalRankFusion
        [{chunk_id := 1}, {chunk_id := 2}] [{chunk_id := 2}, {chunk_id := 3}]
        60 (7 / 10) (3 / 10)).map Cand.chunk_id).count 7 = 0 := by
  have h := c3_rrf_totality
    [{chunk_id := 1}, {chunk_id := 2}] [{chunk_id := 2}, {chunk_id := 3}]
    60 (7 / 10) (3 / 10) (by decide) (by decide)
  exact ⟨(h.1 2).trans (by decide), (h.1 7).trans (by decide)⟩

/-- C8: with equal nonnegative weights, a candidate `a` present in both
ranked lists at ranks at most `r` receives a fused score at least that of a
candidate `b` present in exactly one list at rank `r` or worse. -/
theorem c8_rrf_monotone (vres kres : List Cand) (k : Nat) (w : ℚ) (hw : 0 ≤ w)
    (hv : (vres.map Cand.chunk_id).Nodup) (hk : (kres.map Cand.chunk_id).Nodup)
    (a b r : Nat)
    (hav : a ∈ vres.map Cand.chunk_id) (hak : a ∈ kres.map Cand.chunk_id)
    (hra1 : idxOfNat a (vres.map Cand.chunk_id) ≤ r)
    (hra2 : idxOfNat a (kres.map Cand.chunk_id) ≤ r)
    (hb : (b ∈ vres.map Cand.chunk_id ∧ b ∉ kres.map Cand.chunk_id ∧
            r ≤ idxOfNat b (vres.map Cand.chunk_id)) ∨
          (b ∈ kres.map Cand.chunk_id ∧ b ∉ vres.map Cand.chunk_id ∧
            r ≤ idxOfNat b (kres.map Cand.chunk_id))) :
    (alookup (rrfScores vres kres k w w).1 b).getD 0 ≤
      (alookup (rrfScores vres kres k w w).1 a).getD 0 := by
  have hmono : ∀ i j : Nat, i ≤ j →
      w / ((k : ℚ) + (j : ℚ) + 1) ≤ w / ((k : ℚ) + (i : ℚ) + 1) := by
    intro i j hij
    have hpos : (0 : ℚ) < (k : ℚ) + (i : ℚ) + 1 := by positivity
    have hle : (k : ℚ) + (i : ℚ) + 1 ≤ (k : ℚ) + (j : ℚ) + 1 := by
      have : (i : ℚ) ≤ (j : ℚ) := by exact_mod_cast hij
      linarith
    exact div_le_div_of_nonneg_left hw hpos hle
  have hnn : ∀ i : Nat, (0 : ℚ) ≤ w / ((k : ℚ) + (i : ℚ) + 1) := by
    intro i
    positivity
  rw [rrfScores_lookup vres kres k w w hv hk a, if_pos (Or.inl hav),
    rrfScores_lookup vres kres k w w hv hk b]
  rcases hb with ⟨hbv, hbk, hbr⟩ | ⟨hbk, hbv, hbr⟩
  · rw [if_pos (Or.inl hbv)]
    simp only [Option.getD_some]
    unfold rrfClaimScore
    rw [if_pos hav, if_pos hak, if_pos hbv, if_neg hbk]
    have t1 := hmono r (idxOfNat b (vres.map Cand.chunk_id)) hbr
    have t2 := hmono (idxOfNat a (vres.map Cand.chunk_id)) r hra1
    have t3 := hnn (idxOfNat a (kres.map Cand.chunk_id))
    linarith
  · rw [if_pos (Or.inr hbk)]
    simp only [Option.getD_some]
    unfold rrfClaimScore
    rw [if_pos hav, if_pos hak, if_pos hbk, if_neg hbv]
    have t1 := hmono r (idxOfNat b (kres.map Cand.chunk_id)) hbr
    have t2 := hmono (idxOfNat a (kres.map Cand.chunk_id)) r hra2
    have t3 := hnn (idxOfNat a (vres.map Cand.chunk_id))
    linarith

/-- C8 (witness): concrete instance with `a = 2` at ranks 1 and 0, `b = 3`
at rank 1 of the keyword list only, `r = 1`, equal weights `1/2`. -/
theorem c8_rrf_monotone_witness :
    (alookup (rrfScores [{chunk_id := 1}, {chunk_id := 2}]
        [{chunk_id := 2}, {chunk_id := 3}] 60 (1 / 2) (1 / 2)).1 3).getD 0 ≤
      (alookup (rrfScores [{chunk_id := 1}, {chunk_id := 2}]
        [{chunk_id := 2}, {chunk_id := 3}] 60 (1 / 2) (1 / 2)).1 2).getD 0 :=
  c8_rrf_monotone [{chunk_id := 1}, {chunk_id := 2}]
    [{chunk_id := 2}, {chunk_id := 3}] 60 (1 / 2) (by norm_num)
    (by decide) (by decide) 2 3 1 (by decide) (by decide) (by decide) (by decide)
    (Or.inr ⟨by decide, by decide, by decide⟩)

/-! ### Helper lemmas: stability of the descending sort -/

theorem filter_all_lt {α : Type} (key : α → ℚ) (s : ℚ) (l : List α)
    (h : ∀ z ∈ l, key z < s) : l.filter (fun a => key a = s) = [] := by
  induction l with
  | nil => rfl
  | cons y ys ih =>
    have hy : ¬(key y = s) := ne_of_lt (h y (by simp))
    simp only [List.filter_cons, hy, decide_False]
    exact ih fun z hz => h z (by simp [hz])

theorem insertDescBy_filter_eq {α : Type} (key : α → ℚ) (x : α) (s : ℚ) :
    ∀ l : List α, l.Pairwise (fun a b => key b ≤ key a) →
      (insertDescBy key x l).filter (fun a => key a = s) =
        l.filter (fun a => key a = s) ++ (if key x = s then [x] else []) := by
  intro l
  induction l with
  | nil =>
    intro _
    by_cases hx : key x = s <;> simp [insertDescBy, List.filter_cons, hx]
  | cons y ys ih =>
    intro hsorted
    rcases List.pairwise_cons.mp hsorted with ⟨hy, hys⟩
    by_cases hlt : key y < key x
    · simp only [insertDescBy, if_pos hlt]
      by_cases hx : key x = s
      · have hempty : (y :: ys).filter (fun a => key a = s) = [] := by
          refine filter_all_lt key s (y :: ys) ?_
          intro z hz
          rcases List.mem_cons.mp hz with rfl | hz'
          · rw [← hx]; exact hlt
          · rw [← hx]; exact lt_of_le_of_lt (hy z hz') hlt
        rw [hempty]
        simp [List.filter_cons, hx, hempty]
      · simp only [List.filter_cons, hx, decide_False, if_neg hx]
        simp [List.filter_cons]
    · simp only [insertDescBy, if_neg hlt]
      by_cases hys' : key y = s <;>
        simp [List.filter_cons, hys', ih hys, List.append_assoc]

theorem sortDescBy_filter_eq {α : Type} (key : α → ℚ) (s : ℚ) (l : List α) :
    (sortDescBy key l).filter (fun a => key a = s) =
      l.filter (fun a => key a = s) := by
  unfold sortDescBy
  have main : ∀ (l acc : List α), acc.Pairwise (fun a b => key b ≤ key a) →
      (List.foldl (fun acc x => insertDescBy key x acc) acc l).filter
          (fun a => key a = s) =
        acc.filter (fun a => key a = s) ++ l.filter (fun a => key a = s) := by
    intro l
    induction l with
    | nil => intro acc _; simp
    | cons x xs ih =>
      intro acc hacc
      simp only [List.foldl_cons]
      rw [ih _ (insertDescBy_sorted key x acc hacc),
        insertDescBy_filter_eq key x s acc hacc]
      by_cases hx : key x = s <;> simp [List.filter_cons, hx, List.append_assoc]
  simpa using main l [] (by simp)

theorem zipWith_score_ne_none :
    ∀ (cs : List Cand) (ss : List ℚ),
      ∀ c ∈ List.zipWith
        (fun c s => {c with rerank_score := some (roundDp 4 s)}) cs ss,
        c.rerank_score ≠ none := by
  intro cs
  induction cs with
  | nil => intro ss c hc; simp at hc
  | cons x xs ih =>
    intro ss c hc
    cases ss with
    | nil => simp at hc
    | cons s0 srest =>
      rcases List.mem_cons.mp hc with rfl | hc'
      · simp
      · exact ih srest c hc'

/-- C9: `_rerank` returns `[]` on an empty candidate list for *every* scoring
oracle (so the model result is irrelevant and never consulted); it builds one
`(query, text)` pair per candidate preferring non-empty enriched text; and
when the oracle returns one score per pair, the result is the first
`result_limit` elements of a list that (i) is a permutation of the candidates
annotated with their rounded scores, (ii) is sorted descending by
`rerank_score`, and (iii) is *stable*: within each score class the original
order is preserved. -/
theorem c9_rerank_contract (predict : List (String × String) → List ℚ)
    (query : String) (candidates : List Cand) (topK : Nat) :
    rerank predict query [] topK = [] ∧
    (rerankPairs query candidates).length = candidates.length ∧
    (candidates ≠ [] →
      (predict (rerankPairs query candidates)).length = candidates.length →
      ∃ sorted : List Cand,
        rerank predict query candidates topK = sorted.take topK ∧
        sorted.length = candidates.length ∧
        sorted.Perm (List.zipWith
          (fun c s => {c with rerank_score := some (roundDp 4 s)})
          candidates (predict (rerankPairs query candidates))) ∧
        sorted.Pairwise (fun a b =>
          b.rerank_score.getD 0 ≤ a.rerank_score.getD 0) ∧
        (∀ s : ℚ, sorted.filter (fun c => c.rerank_score.getD 0 = s) =
          (List.zipWith
            (fun c s => {c with rerank_score := some (roundDp 4 s)})
            candidates
            (predict (rerankPairs query candidates))).filter
              (fun c => c.rerank_score.getD 0 = s))) := by
  refine ⟨by simp [rerank, rerankEffect], by simp [rerankPairs], ?_⟩
  intro hne hlen
  refine ⟨sortDescBy (fun c => c.rerank_score.getD 0)
    (List.zipWith (fun c s => {c with rerank_score := some (roundDp 4 s)})
      candidates (predict (rerankPairs query candidates))), ?_, ?_, ?_, ?_, ?_⟩
  · unfold rerank rerankEffect
    rw [if_neg hne]
  · rw [(sortDescBy_perm _ _).length_eq, List.length_zipWith, hlen]
    exact Nat.min_self _
  · exact sortDescBy_perm _ _
  · exact sortDescBy_sorted _ _
  · intro s
    exact sortDescBy_filter_eq _ s _

/-- C9 (witness): the contract applied to two concrete candidates and a
concrete scoring oracle. -/
theorem c9_rerank_contract_witness :
    ∃ sorted : List Cand,
      rerank (fun ps => ps.map (fun _ => (1 : ℚ) / 2)) "q"
          [{chunk_id := 1, chunk_text := "one"},
            {chunk_id := 2, chunk_text := "two"}] 1 = sorted.take 1 ∧
      sorted.length =
        ([{chunk_id := 1, chunk_text := "one"},
          {chunk_id := 2, chunk_text := "two"}] : List Cand).length ∧
      sorted.Perm (List.zipWith
        (fun (c : Cand) (s : ℚ) => {c with rerank_score := some (roundDp 4 s)})
        ([{chunk_id := 1, chunk_text := "one"},
          {chunk_id := 2, chunk_text := "two"}] : List Cand)
        ((fun ps => ps.map (fun _ => (1 : ℚ) / 2))
          (rerankPairs "q" [{chunk_id := 1, chunk_text := "one"},
            {chunk_id := 2, chunk_text := "two"}]))) ∧
      sorted.Pairwise (fun a b =>
        b.rerank_score.getD 0 ≤ a.rerank_score.getD 0) ∧
      (∀ s : ℚ, sorted.filter (fun c => c.rerank_score.getD 0 = s) =
        (List.zipWith
          (fun (c : Cand) (s : ℚ) => {c with rerank_score := some (roundDp 4 s)})
          ([{chunk_id := 1, chunk_text := "one"},
            {chunk_id := 2, chunk_text := "two"}] : List Cand)
          ((fun ps => ps.map (fun _ => (1 : ℚ) / 2))
            (rerankPairs "q" [{chunk_id := 1, chunk_text := "one"},
              {chunk_id := 2, chunk_text := "two"}]))).filter
            (fun c => c.rerank_score.getD 0 = s)) :=
  (c9_rerank_contract (fun ps => ps.map (fun _ => (1 : ℚ) / 2)) "q"
    [{chunk_id := 1, chunk_text := "one"},
      {chunk_id := 2, chunk_text := "two"}] 1).2.2 (by decide) (by decide)

/-- C10: `_rerank` mutates the list object its caller passes: after the call
every candidate record it was given carries a `rerank_score` (including the
records beyond `result_limit` that are not part of the return value), the
list itself is reordered to the score-descending permutation of the
annotated records, and the return value is just the first `result_limit`
elements of that mutated list.  `rerankEffect` is the post-call state of the
caller's list. -/
theorem c10_rerank_mutation (predict : List (String × String) → List ℚ)
    (query : String) (candidates : List Cand) (topK : Nat)
    (hne : candidates ≠ [])
    (hlen : (predict (rerankPairs query candidates)).length =
      candidates.length) :
    (rerankEffect predict query candidates).length = candidates.length ∧
    (∀ c ∈ rerankEffect predict query candidates, c.rerank_score ≠ none) ∧
    (rerankEffect predict query candidates).Perm
      (List.zipWith (fun c s => {c with rerank_score := some (roundDp 4 s)})
        candidates (predict (rerankPairs query candidates))) ∧
    rerank predict query candidates topK =
      (rerankEffect predict query candidates).take topK := by
  have heff : rerankEffect predict query candidates =
      sortDescBy (fun c => c.rerank_score.getD 0)
        (List.zipWith (fun c s => {c with rerank_score := some (roundDp 4 s)})
          candidates (predict (rerankPairs query candidates))) := by
    unfold rerankEffect
    rw [if_neg hne]
  refine ⟨?_, ?_, ?_, rfl⟩
  · rw [heff, (sortDescBy_perm _ _).length_eq, List.length_zipWith, hlen]
    exact Nat.min_self _
  · intro c hc
    rw [heff] at hc
    exact zipWith_score_ne_none candidates _ c ((sortDescBy_perm _ _).mem_iff.mp hc)
  · rw [heff]
    exact sortDescBy_perm _ _

/-- C10 (witness): the mutation contract evaluated on two concrete
candidates with a concrete oracle. -/
theorem c10_rerank_mutation_witness :
    (rerankEffect (fun ps => ps.map (fun _ => (1 : ℚ) / 2)) "q"
        [{chunk_id := 1, chunk_text := "one"},
          {chunk_id := 2, chunk_text := "two"}]).length = 2 ∧
    (∀ c ∈ rerankEffect (fun ps => ps.map (fun _ => (1 : ℚ) / 2)) "q"
        [{chunk_id := 1, chunk_text := "one"},
          {chunk_id := 2, chunk_text := "two"}], c.rerank_score ≠ none) ∧
    rerank (fun ps => ps.map (fun _ => (1 : ℚ) / 2)) "q"
        [{chunk_id := 1, chunk_text := "one"},
          {chunk_id := 2, chunk_text := "two"}] 1 =
      (rerankEffect (fun ps => ps.map (fun _ => (1 : ℚ) / 2)) "q"
        [{chunk_id := 1, chunk_text := "one"},
          {chunk_id := 2, chunk_text := "two"}]).take 1 := by
  have h := c10_rerank_mutation (fun ps => ps.map (fun _ => (1 : ℚ) / 2)) "q"
    [{chunk_id := 1, chunk_text := "one"},
      {chunk_id := 2, chunk_text := "two"}] 1 (by decide) (by decide)
  exact ⟨h.1, h.2.1, h.2.2.2⟩

/-! ### Helper lemmas: the search pipeline and its cache -/

theorem searchCompute_fst_cache_free (w : RagWorld) (q : String) (k : Nat)
    (uc uc' rr : Bool) :
    (searchCompute w q k uc rr).1 = (searchCompute w q k uc' rr).1 := by
  unfold searchCompute
  dsimp only
  split_ifs <;> rfl

theorem searchCompute_world (w : RagWorld) (q : String) (k : Nat)
    (uc rr : Bool) :
    (searchCompute w q k uc rr).2.time = w.time ∧
    (searchCompute w q k uc rr).2.cacheGetFails = w.cacheGetFails ∧
    (searchCompute w q k uc rr).2.cacheSetFails = w.cacheSetFails ∧
    (¬(uc = true ∧ (searchCompute w q k uc rr).1.results ≠ []) →
      (searchCompute w q k uc rr).2.cacheEntries = w.cacheEntries) ∧
    (uc = true → (searchCompute w q k uc rr).1.results ≠ [] →
      w.cacheSetFails = false →
      (searchCompute w q k uc rr).2.cacheEntries =
        aupsert w.cacheEntries (cacheKey q)
          ((searchCompute w q k uc rr).1, w.time + cacheTtlSeconds)) ∧
    (w.cacheSetFails = true →
      (searchCompute w q k uc rr).2.cacheEntries = w.cacheEntries) := by
  unfold searchCompute
  dsimp only
  by_cases hsf : w.cacheSetFails = true <;>
    split_ifs with h1 h2 h3 <;>
      simp_all [setCache]

/-- C4: cache failures never surface as a failure of `search`.  A failing
read (`cacheGetFails`) behaves exactly like running with the cache disabled
(the result is recomputed); the outcome of a write is irrelevant to the
response (a failing store is a no-op, and the cache contents are then left
untouched).  `search` is a total function: no cache outcome can make it
propagate an error. -/
theorem c4_cache_failures_swallowed :
    (∀ (w : RagWorld) (q : String) (k : Nat) (rr : Bool),
      w.cacheGetFails = true →
      (search w q k true rr).1 = (search w q k false rr).1) ∧
    (∀ (w : RagWorld) (q : String) (k : Nat) (rr : Bool) (b1 b2 : Bool),
      (search {w with cacheSetFails := b1} q k true rr).1 =
        (search {w with cacheSetFails := b2} q k true rr).1) ∧
    (∀ (w : RagWorld) (q : String) (k : Nat) (rr : Bool),
      w.cacheSetFails = true →
      (search w q k true rr).2.cacheEntries = w.cacheEntries) := by
  refine ⟨?_, ?_, ?_⟩
  · intro w q k rr hg
    have hcc : checkCache w q = none := by
      unfold checkCache
      rw [if_pos hg]
    unfold search
    rw [if_pos rfl, hcc]
    exact searchCompute_fst_cache_free w q k true false rr
  · intro w q k rr b1 b2
    have hcc : ∀ b : Bool, checkCache {w with cacheSetFails := b} q =
        checkCache w q := by
      intro b
      unfold checkCache
      rfl
    unfold search
    rw [if_pos rfl, if_pos rfl, hcc b1, hcc b2]
    cases hck : checkCache w q with
    | some cached => rfl
    | none =>
      have hfst : ∀ b : Bool,
          (searchCompute {w with cacheSetFails := b} q k true rr).1 =
            (searchCompute w q k true rr).1 := by
        intro b
        unfold searchCompute
        dsimp only
        split_ifs <;> rfl
      rw [hfst b1, hfst b2]
  · intro w q k rr hs
    unfold search
    rw [if_pos rfl]
    cases hck : checkCache w q with
    | some cached => rfl
    | none => exact (searchCompute_world w q k true rr).2.2.2.2.2 hs

/-- C4 (witness): a world whose cache read fails produces the same response
as a cache-disabled run, and a failing store leaves the cache untouched, at
a concrete world. -/
theorem c4_cache_failures_swallowed_witness :
    (search {sampleWorld with cacheGetFails := true} "q" 5 true false).1 =
      (search {sampleWorld with cacheGetFails := true} "q" 5 false false).1 ∧
    (search {sampleWorld with cacheSetFails := true} "q" 5 true false).2.cacheEntries =
      ({sampleWorld with cacheSetFails := true} : RagWorld).cacheEntries := by
  refine ⟨?_, ?_⟩
  · exact c4_cache_failures_swallowed.1 {sampleWorld with cacheGetFails := true}
      "q" 5 false rfl
  · exact c4_cache_failures_swallowed.2.2 {sampleWorld with cacheSetFails := true}
      "q" 5 false rfl

/-- C5: with a healthy cache backend, a first `search` (cold cache for this
query) whose result list is non-empty stores its response; a second `search`
with the identical query string, issued before the TTL instant, returns that
stored response marked `cached = true` — and leaves the world completely
untouched (no embedding, vector search, keyword search, fusion, reranking or
store happens: every collaborator counter and the cache itself are
unchanged).  Conversely a response with an empty result list is never
stored: the cache contents after the first call are exactly as before. -/
theorem c5_cache_roundtrip :
    (∀ (w : RagWorld) (q : String) (k : Nat) (rr : Bool) (t2 : Nat),
      w.cacheGetFails = false → w.cacheSetFails = false →
      alookup w.cacheEntries (cacheKey q) = none →
      (search w q k true rr).1.results ≠ [] →
      t2 < w.time + cacheTtlSeconds →
      (search {(search w q k true rr).2 with time := t2} q k true rr).1 =
          {(search w q k true rr).1 with cached := true} ∧
      (search {(search w q k true rr).2 with time := t2} q k true rr).2 =
          {(search w q k true rr).2 with time := t2}) ∧
    (∀ (w : RagWorld) (q : String) (k : Nat) (rr : Bool),
      (search w q k true rr).1.results = [] →
      (search w q k true rr).2.cacheEntries = w.cacheEntries) := by
  constructor
  · intro w q k rr t2 hg hs hmiss hne hlt
    have hcc : checkCache w q = none := by
      unfold checkCache
      rw [if_neg (by simp [hg]), hmiss]
    have hsearch : search w q k true rr = searchCompute w q k true rr := by
      unfold search
      rw [if_pos rfl, hcc]
    rw [hsearch] at hne ⊢
    have hw := searchCompute_world w q k true rr
    have hstore := hw.2.2.2.2.1 rfl hne hs
    have hget2 :
        ¬(({(searchCompute w q k true rr).2 with time := t2} : RagWorld).cacheGetFails
          = true) := by
      show ¬((searchCompute w q k true rr).2.cacheGetFails = true)
      rw [hw.2.1, hg]
      simp
    have hcc2 : checkCache {(searchCompute w q k true rr).2 with time := t2} q =
        some (searchCompute w q k true rr).1 := by
      unfold checkCache
      rw [if_neg hget2]
      show (match alookup (searchCompute w q k true rr).2.cacheEntries
          (cacheKey q) with
        | some (resp, expiry) => if t2 < expiry then some resp else none
        | none => none) = _
      rw [hstore, alookup_aupsert, if_pos rfl]
      show (if t2 < w.time + cacheTtlSeconds then _ else none) = _
      rw [if_pos hlt]
    constructor
    · unfold search
      rw [if_pos rfl, hcc2]
    · unfold search
      rw [if_pos rfl, hcc2]
  · intro w q k rr hempty
    unfold search at hempty ⊢
    rw [if_pos rfl] at hempty ⊢
    cases hck : checkCache w q with
    | some cached => rfl
    | none =>
      rw [hck] at hempty
      refine (searchCompute_world w q k true rr).2.2.2.1 ?_
      rintro ⟨-, hneq⟩
      exact hneq hempty

/-- C5 (witness): the round trip at a concrete cold world: the second call at
time 10 (before TTL 3600) returns the first response marked cached and leaves
the world unchanged. -/
theorem c5_cache_roundtrip_witness :
    (search {(search sampleWorld "q" 5 true false).2 with time := 10} "q" 5
        true false).1 =
      {(search sampleWorld "q" 5 true false).1 with cached := true} ∧
    (search {(search sampleWorld "q" 5 true false).2 with time := 10} "q" 5
        true false).2 =
      {(search sampleWorld "q" 5 true false).2 with time := 10} :=
  c5_cache_roundtrip.1 sampleWorld "q" 5 false 10 rfl rfl rfl (by decide)
    (by decide)
